import Mathlib

/-!
Verification of the symmetry-group module (`src/groups/SymmetricGroups.py`).

Matrices are embedded as total functions `ℕ → ℕ → ℤ` together with an explicit
dimension `d`; every matrix produced by the code is zero outside the `d × d`
block, and all operations (multiplication, trace, norms) only read the block.
-/

namespace MorphoSymm

/-- Equality of two matrices on the `d × d` block (the semantics of
`np.allclose` on exact integer `d × d` arrays). -/
def matEq (d : ℕ) (A B : ℕ → ℕ → ℤ) : Prop :=
  ∀ i < d, ∀ j < d, A i j = B i j

instance (d : ℕ) (A B : ℕ → ℕ → ℤ) : Decidable (matEq d A B) := by
  unfold matEq; infer_instance

/-- The `d × d` identity matrix (`np.eye(d)`), zero outside the block. -/
def eyeM (d : ℕ) : ℕ → ℕ → ℤ :=
  fun i j => if i < d ∧ j < d ∧ i = j then 1 else 0

/-- Matrix product over the `d × d` block (`@` on `d × d` arrays). -/
def matMul (d : ℕ) (A B : ℕ → ℕ → ℤ) : ℕ → ℕ → ℤ :=
  fun i j => ∑ k ∈ Finset.range d, A i k * B k j

/-- Trace of a `d × d` matrix (`np.trace` / `sum(h.diagonal())`). -/
def traceM (d : ℕ) (A : ℕ → ℕ → ℤ) : ℤ :=
  ∑ i ∈ Finset.range d, A i i

/-- Matrix–vector product over the `d × d` block. -/
def matVec (d : ℕ) (A : ℕ → ℕ → ℤ) (q : ℕ → ℤ) : ℕ → ℤ :=
  fun i => ∑ j ∈ Finset.range d, A i j * q j

/-- Matrix of a (partial) permutation `p` with signs `s`: entry `s i` at
`(i, p i)` for `i < d`, zero elsewhere. -/
def permMatrix (d : ℕ) (p : ℕ → ℕ) (s : ℕ → ℤ) : ℕ → ℕ → ℤ :=
  fun i j => if i < d ∧ j < d ∧ p i = j then s i else 0

/-- `P` is a generalized permutation matrix: every entry of the block is
`0`/`1`/`-1` and every row and every column has exactly one nonzero entry. -/
def genPerm (d : ℕ) (P : ℕ → ℕ → ℤ) : Prop :=
  (∀ i < d, ∀ j < d, P i j = 0 ∨ P i j = 1 ∨ P i j = -1) ∧
  (∀ i < d, ((Finset.range d).filter (fun j => P i j ≠ 0)).card = 1) ∧
  (∀ j < d, ((Finset.range d).filter (fun i => P i j ≠ 0)).card = 1)

instance (d : ℕ) (P : ℕ → ℕ → ℤ) : Decidable (genPerm d P) := by
  unfold genPerm; infer_instance

/-- Column index of the nonzero entry of row `i`, computed as the code does:
`w = |P| @ arange(d)`, i.e. `w i = Σ_j |P i j| * j`. -/
def permCol (d : ℕ) (P : ℕ → ℕ → ℤ) (i : ℕ) : ℕ :=
  ∑ j ∈ Finset.range d, (P i j).natAbs * j

/-- Sign of row `i`, computed as the code does: `np.sum(P[i, :])`. -/
def rowSign (d : ℕ) (P : ℕ → ℕ → ℤ) (i : ℕ) : ℤ :=
  ∑ j ∈ Finset.range d, P i j

/-! ## Generator validation (`Sym.__init__`) -/

/-- Column-orthonormality check of `Sym.__init__`
(`np.allclose(np.linalg.norm(h, axis=0), 1)`): for integer matrices the
column 2-norm is `1` iff the sum of squared entries of the column is `1`. -/
def symOrthonormal (d : ℕ) (g : ℕ → ℕ → ℤ) : Prop :=
  ∀ j < d, (∑ i ∈ Finset.range d, (g i j) ^ 2) = 1

instance (d : ℕ) (g : ℕ → ℕ → ℤ) : Decidable (symOrthonormal d g) := by
  unfold symOrthonormal; infer_instance

/-- The diagonals examined by `Sym.__init__`:
`[h.diagonal() for h in generators] * 4` (the generator list tiled 4 times). -/
def symDiagsTiled (gens : List (ℕ → ℕ → ℤ)) : List (ℕ → ℤ) :=
  (gens ++ (gens ++ (gens ++ gens))).map (fun h => fun i => h i i)

/-- `inv_dims` of `Sym.__init__`: dimensions whose diagonal entry equals `1`
in every tiled generator. -/
def invDimsTiled (d : ℕ) (gens : List (ℕ → ℕ → ℤ)) : Finset ℕ :=
  (Finset.range d).filter (fun i => ∀ hd ∈ symDiagsTiled gens, hd i = 1)

/-- `n_inv_dims` of `Sym.__init__`. -/
def nInvDimsTiled (d : ℕ) (gens : List (ℕ → ℕ → ℤ)) : ℕ :=
  (invDimsTiled d gens).card

/-- Modelled from the spec: the untiled invariant-dimension set, "dimension
`i` is invariant iff every supplied generator's diagonal entry at `i` equals
`1`" (spec §4.1), stated without the 4× tiling of the source. -/
def invDimsUntiled (d : ℕ) (gens : List (ℕ → ℕ → ℤ)) : Finset ℕ :=
  (Finset.range d).filter (fun i => ∀ g ∈ gens, g i i = 1)

lemma mem_symDiagsTiled (gens : List (ℕ → ℕ → ℤ)) (f : ℕ → ℤ) :
    f ∈ symDiagsTiled gens ↔ ∃ g ∈ gens, (fun i => g i i) = f := by
  simp [symDiagsTiled]

lemma invDimsTiled_eq_untiled (d : ℕ) (gens : List (ℕ → ℕ → ℤ)) :
    invDimsTiled d gens = invDimsUntiled d gens := by
  unfold invDimsTiled invDimsUntiled
  apply Finset.filter_congr
  intro i _
  constructor
  · intro h g hg
    exact h (fun k => g k k) ((mem_symDiagsTiled gens _).2 ⟨g, hg, rfl⟩)
  · intro h f hf
    obtain ⟨g, hg, hfg⟩ := (mem_symDiagsTiled gens f).1 hf
    rw [← hfg]
    exact h g hg

/-- C9: for every non-empty generator list, the invariant-dimension
computation that replicates the generator list 4 times before checking
diagonals is equivalent to the untiled definition: dimension `i` is marked
invariant iff every supplied generator's diagonal entry at `i` equals `1`,
and `n_inv_dims` is the count of such dimensions. -/
theorem c9_tiling_equiv (d : ℕ) (gens : List (ℕ → ℕ → ℤ)) (hne : gens ≠ []) :
    invDimsTiled d gens = invDimsUntiled d gens ∧
    (∀ i, i ∈ invDimsTiled d gens ↔ (i < d ∧ ∀ g ∈ gens, g i i = 1)) ∧
    nInvDimsTiled d gens = (invDimsUntiled d gens).card := by
  refine ⟨invDimsTiled_eq_untiled d gens, ?_, ?_⟩
  · intro i
    rw [invDimsTiled_eq_untiled]
    simp [invDimsUntiled]
  · rw [nInvDimsTiled, invDimsTiled_eq_untiled]

/-- Witness for C9 at a concrete generator list. -/
theorem c9_witness :
    ([fun i j => if i = j then (1 : ℤ) else 0] : List (ℕ → ℕ → ℤ)) ≠ [] ∧
    invDimsTiled 2 [fun i j => if i = j then (1 : ℤ) else 0] =
      invDimsUntiled 2 [fun i j => if i = j then (1 : ℤ) else 0] := by
  refine ⟨by simp, ?_⟩
  exact (c9_tiling_equiv 2 [fun i j => if i = j then (1 : ℤ) else 0] (by simp)).1

/-! ## `Sym.oneline2matrix` -/

/-- Reduction modulo the `int8` dtype (`P.astype(np.int8)`); identity on
values in `[-128, 127]`, in particular on signs `±1`. -/
def toInt8 (x : ℤ) : ℤ :=
  (x + 128) % 256 - 128

/-- The effective sign vector of `oneline2matrix`:
`np.ones((d,)) if not reflexions else reflexions` — `None` and the empty
list both fall back to all ones. -/
def effSigns (d : ℕ) (reflexions : Option (List ℤ)) : List ℤ :=
  match reflexions with
  | none => List.replicate d 1
  | some s => if s.isEmpty then List.replicate d 1 else s

/-- `Sym.oneline2matrix(oneline_notation, reflexions)`.  Checks, in source
order: the uniqueness assert (`d == len(np.unique(oneline_notation))`), the
sign-length assert, and the bounds check performed by the sparse `coo_matrix`
constructor on the column indices `np.abs(oneline_notation)` (out-of-range
indices raise a library `ValueError`).  On success the matrix has entry
`int8(reflexions[i])` at `(i, |oneline_notation[i]|)` and zeros elsewhere
(the coordinate rows `range(d)` are pairwise distinct, so no entries are
merged). -/
def oneline2matrix (oneline : List ℤ) (reflexions : Option (List ℤ)) :
    Except String (ℕ → ℕ → ℤ) :=
  let d := oneline.length
  if oneline.dedup.length ≠ d then
    .error "InvalidPermutationError"
  else
    let r := effSigns d reflexions
    if r.length ≠ d then
      .error "ReflexionLengthAssert"
    else if ¬ (∀ x ∈ oneline, x.natAbs < d) then
      .error "ValueError"
    else
      .ok (fun i j =>
        if i < d ∧ j < d ∧ (oneline.getD i 0).natAbs = j then toInt8 (r.getD i 0)
        else 0)

/-- `true` iff the computation returned a value rather than raising. -/
def isOkE {α : Type} (e : Except String α) : Bool :=
  match e with
  | .ok _ => true
  | .error _ => false

/-- C8 counterexample: the notation `[-1, 1]` is not a permutation of
`{0, 1}`, yet `oneline2matrix` returns a matrix instead of raising
`InvalidPermutationError` (the code only checks uniqueness of the raw
values, and both absolute values are in range). -/
theorem c8_counterexample :
    isOkE (oneline2matrix [-1, 1] none) = true ∧
    ¬ ((-1 : ℤ) ∈ ([0, 1] : List ℤ)) := by
  constructor
  · decide
  · decide

/-- C8 (amended): `oneline2matrix` fails with `InvalidPermutationError`
exactly when the notation has duplicate values; a duplicate-free notation
with some `|notation[i]| ≥ d` fails with a library-level error instead; and
a duplicate-free notation whose absolute values all lie in `{0,…,d−1}`
(with a sign vector of the right length, defaulting to all `+1`) yields the
matrix with entry `int8(signs[i])` at `(i, |notation[i]|)` and zeros
elsewhere. -/
theorem c8_oneline_matrix (oneline : List ℤ) (reflexions : Option (List ℤ))
    (hr : (effSigns oneline.length reflexions).length = oneline.length) :
    (oneline.dedup.length ≠ oneline.length →
      oneline2matrix oneline reflexions = .error "InvalidPermutationError") ∧
    (oneline.dedup.length = oneline.length →
      ¬ (∀ x ∈ oneline, x.natAbs < oneline.length) →
      oneline2matrix oneline reflexions = .error "ValueError") ∧
    (oneline.dedup.length = oneline.length →
      (∀ x ∈ oneline, x.natAbs < oneline.length) →
      ∃ M, oneline2matrix oneline reflexions = .ok M ∧
        (∀ i < oneline.length,
          M i ((oneline.getD i 0).natAbs) =
            toInt8 ((effSigns oneline.length reflexions).getD i 0)) ∧
        (∀ i j, M i j ≠ 0 →
          i < oneline.length ∧ j = (oneline.getD i 0).natAbs)) := by
  refine ⟨?_, ?_, ?_⟩
  · intro hdup
    unfold oneline2matrix
    simp only [if_pos hdup]
  · intro hdup hrange
    unfold oneline2matrix
    rw [if_neg (by simp [hdup]), if_neg (by simp [hr]), if_pos hrange]
  · intro hdup hrange
    refine ⟨fun i j =>
        if i < oneline.length ∧ j < oneline.length ∧ (oneline.getD i 0).natAbs = j
        then toInt8 ((effSigns oneline.length reflexions).getD i 0) else 0, ?_, ?_, ?_⟩
    · unfold oneline2matrix
      rw [if_neg (by simp [hdup]), if_neg (by simp [hr]), if_neg (not_not_intro hrange)]
    · intro i hi
      have hb : (oneline.getD i 0).natAbs < oneline.length := by
        apply hrange
        rw [List.getD_eq_getElem oneline 0 hi]
        exact List.getElem_mem hi
      exact if_pos ⟨hi, hb, rfl⟩
    · intro i j hM
      by_cases hc : i < oneline.length ∧ j < oneline.length ∧ (oneline.getD i 0).natAbs = j
      · exact ⟨hc.1, hc.2.2.symm⟩
      · simp only [if_neg hc] at hM
        exact absurd rfl hM

/-- Witness for C8 at the spec's concrete example `[1, 0, 2]` with signs
`[1, -1, 1]`. -/
theorem c8_witness :
    (effSigns ([1, 0, 2] : List ℤ).length (some [1, -1, 1])).length =
      ([1, 0, 2] : List ℤ).length ∧
    (([1, 0, 2] : List ℤ).dedup.length = ([1, 0, 2] : List ℤ).length →
      (∀ x ∈ ([1, 0, 2] : List ℤ), x.natAbs < ([1, 0, 2] : List ℤ).length) →
      ∃ M, oneline2matrix [1, 0, 2] (some [1, -1, 1]) = .ok M ∧
        (∀ i < ([1, 0, 2] : List ℤ).length,
          M i ((([1, 0, 2] : List ℤ).getD i 0).natAbs) =
            toInt8 ((effSigns ([1, 0, 2] : List ℤ).length (some [1, -1, 1])).getD i 0)) ∧
        (∀ i j, M i j ≠ 0 →
          i < ([1, 0, 2] : List ℤ).length ∧ j = (([1, 0, 2] : List ℤ).getD i 0).natAbs)) :=
  ⟨by decide, (c8_oneline_matrix [1, 0, 2] (some [1, -1, 1]) (by decide)).2.2⟩

/-! ## Structure of generalized permutation matrices -/

lemma permCol_spec {d : ℕ} {P : ℕ → ℕ → ℤ} (hP : genPerm d P) {i : ℕ}
    (hi : i < d) :
    permCol d P i < d ∧
    (P i (permCol d P i) = 1 ∨ P i (permCol d P i) = -1) ∧
    (∀ j < d, j ≠ permCol d P i → P i j = 0) := by
  obtain ⟨j₀, hj₀⟩ := Finset.card_eq_one.mp (hP.2.1 i hi)
  have hj₀mem : j₀ ∈ (Finset.range d).filter (fun j => P i j ≠ 0) := by
    rw [hj₀]; exact Finset.mem_singleton_self j₀
  rw [Finset.mem_filter, Finset.mem_range] at hj₀mem
  have huniq : ∀ j < d, P i j ≠ 0 → j = j₀ := by
    intro j hj hne
    have hmem : j ∈ (Finset.range d).filter (fun j => P i j ≠ 0) :=
      Finset.mem_filter.2 ⟨Finset.mem_range.2 hj, hne⟩
    rw [hj₀] at hmem
    exact Finset.mem_singleton.1 hmem
  have hcol : permCol d P i = j₀ := by
    unfold permCol
    rw [Finset.sum_eq_single j₀]
    · rcases hP.1 i hi j₀ hj₀mem.1 with h0 | h1 | hm1
      · exact absurd h0 hj₀mem.2
      · rw [h1]; simp
      · rw [hm1]; simp
    · intro b hb hbne
      by_cases hPb : P i b = 0
      · rw [hPb]; simp
      · exact absurd (huniq b (Finset.mem_range.1 hb) hPb) hbne
    · intro hnm
      exact absurd (Finset.mem_range.2 hj₀mem.1) hnm
  rw [hcol]
  refine ⟨hj₀mem.1, ?_, ?_⟩
  · rcases hP.1 i hi j₀ hj₀mem.1 with h0 | h1 | hm1
    · exact absurd h0 hj₀mem.2
    · exact Or.inl h1
    · exact Or.inr hm1
  · intro j hj hne
    by_contra hPj
    exact hne (huniq j hj hPj)

lemma permCol_lt {d : ℕ} {P : ℕ → ℕ → ℤ} (hP : genPerm d P) {i : ℕ}
    (hi : i < d) : permCol d P i < d :=
  (permCol_spec hP hi).1

lemma permCol_zero {d : ℕ} {P : ℕ → ℕ → ℤ} (hP : genPerm d P) {i : ℕ}
    (hi : i < d) : ∀ j < d, j ≠ permCol d P i → P i j = 0 :=
  (permCol_spec hP hi).2.2

lemma permCol_injOn {d : ℕ} {P : ℕ → ℕ → ℤ} (hP : genPerm d P) :
    ∀ i₁ < d, ∀ i₂ < d, permCol d P i₁ = permCol d P i₂ → i₁ = i₂ := by
  intro i₁ h₁ i₂ h₂ heq
  obtain ⟨a, ha⟩ := Finset.card_eq_one.mp (hP.2.2 (permCol d P i₁)
    (permCol_lt hP h₁))
  have hmem : ∀ i < d, P i (permCol d P i₁) ≠ 0 → i = a := by
    intro i hid hne
    have : i ∈ (Finset.range d).filter (fun i => P i (permCol d P i₁) ≠ 0) :=
      Finset.mem_filter.2 ⟨Finset.mem_range.2 hid, hne⟩
    rw [ha] at this
    exact Finset.mem_singleton.1 this
  have hv₁ : P i₁ (permCol d P i₁) ≠ 0 := by
    rcases (permCol_spec hP h₁).2.1 with h | h <;> rw [h] <;> decide
  have hv₂ : P i₂ (permCol d P i₁) ≠ 0 := by
    rw [heq]
    rcases (permCol_spec hP h₂).2.1 with h | h <;> rw [h] <;> decide
  rw [hmem i₁ h₁ hv₁, hmem i₂ h₂ hv₂]

lemma permCol_surjOn {d : ℕ} {P : ℕ → ℕ → ℤ} (hP : genPerm d P) :
    ∀ j < d, ∃ i, i < d ∧ permCol d P i = j := by
  intro j hj
  obtain ⟨a, ha⟩ := Finset.card_eq_one.mp (hP.2.2 j hj)
  have hamem : a ∈ (Finset.range d).filter (fun i => P i j ≠ 0) := by
    rw [ha]; exact Finset.mem_singleton_self a
  rw [Finset.mem_filter, Finset.mem_range] at hamem
  refine ⟨a, hamem.1, ?_⟩
  by_contra hne
  exact hamem.2 (permCol_zero hP hamem.1 j hj (fun h => hne h.symm))

lemma rowSign_eq {d : ℕ} {P : ℕ → ℕ → ℤ} (hP : genPerm d P) {i : ℕ}
    (hi : i < d) : rowSign d P i = P i (permCol d P i) := by
  unfold rowSign
  rw [Finset.sum_eq_single (permCol d P i)]
  · intro b hb hbne
    exact permCol_zero hP hi b (Finset.mem_range.1 hb) hbne
  · intro hnm
    exact absurd (Finset.mem_range.2 (permCol_lt hP hi)) hnm

lemma rowSign_pm {d : ℕ} {P : ℕ → ℕ → ℤ} (hP : genPerm d P) {i : ℕ}
    (hi : i < d) : rowSign d P i = 1 ∨ rowSign d P i = -1 := by
  rw [rowSign_eq hP hi]
  exact (permCol_spec hP hi).2.1

lemma rowSign_mul_self {d : ℕ} {P : ℕ → ℕ → ℤ} (hP : genPerm d P) {i : ℕ}
    (hi : i < d) : rowSign d P i * rowSign d P i = 1 := by
  rcases rowSign_pm hP hi with h | h <;> rw [h] <;> decide

lemma genPerm_intro {d : ℕ} {M : ℕ → ℕ → ℤ} (f : ℕ → ℕ)
    (hf : ∀ i < d, f i < d)
    (hfi : ∀ i₁ < d, ∀ i₂ < d, f i₁ = f i₂ → i₁ = i₂)
    (hfs : ∀ j < d, ∃ i, i < d ∧ f i = j)
    (hval : ∀ i < d, M i (f i) = 1 ∨ M i (f i) = -1)
    (hz : ∀ i < d, ∀ j < d, j ≠ f i → M i j = 0) :
    genPerm d M := by
  have hnz : ∀ i < d, M i (f i) ≠ 0 := by
    intro i hi
    rcases hval i hi with h | h <;> rw [h] <;> decide
  refine ⟨?_, ?_, ?_⟩
  · intro i hi j hj
    by_cases hfj : j = f i
    · subst hfj
      rcases hval i hi with h | h
      · exact Or.inr (Or.inl h)
      · exact Or.inr (Or.inr h)
    · exact Or.inl (hz i hi j hj hfj)
  · intro i hi
    have : (Finset.range d).filter (fun j => M i j ≠ 0) = {f i} := by
      apply Finset.ext
      intro j
      rw [Finset.mem_filter, Finset.mem_range, Finset.mem_singleton]
      constructor
      · rintro ⟨hj, hne⟩
        by_contra hc
        exact hne (hz i hi j hj hc)
      · intro h
        subst h
        exact ⟨hf i hi, hnz i hi⟩
    rw [this, Finset.card_singleton]
  · intro j hj
    obtain ⟨i₀, hi₀, hfi₀⟩ := hfs j hj
    have : (Finset.range d).filter (fun i => M i j ≠ 0) = {i₀} := by
      apply Finset.ext
      intro i
      rw [Finset.mem_filter, Finset.mem_range, Finset.mem_singleton]
      constructor
      · rintro ⟨hi, hne⟩
        have hji : j = f i := by
          by_contra hc
          exact hne (hz i hi j hj hc)
        exact hfi i hi i₀ hi₀ (by rw [← hji, hfi₀])
      · intro h
        rw [h, ← hfi₀]
        exact ⟨hi₀, hnz i₀ hi₀⟩
    rw [this, Finset.card_singleton]

lemma matMul_row {d : ℕ} {A : ℕ → ℕ → ℤ} (hA : genPerm d A)
    (B : ℕ → ℕ → ℤ) {i : ℕ} (hi : i < d) (j : ℕ) :
    matMul d A B i j = A i (permCol d A i) * B (permCol d A i) j := by
  unfold matMul
  rw [Finset.sum_eq_single (permCol d A i)]
  · intro b hb hbne
    rw [permCol_zero hA hi b (Finset.mem_range.1 hb) hbne, zero_mul]
  · intro hnm
    exact absurd (Finset.mem_range.2 (permCol_lt hA hi)) hnm

lemma genPerm_mul {d : ℕ} {A B : ℕ → ℕ → ℤ} (hA : genPerm d A)
    (hB : genPerm d B) : genPerm d (matMul d A B) := by
  apply genPerm_intro (fun i => permCol d B (permCol d A i))
  · intro i hi
    exact permCol_lt hB (permCol_lt hA hi)
  · intro i₁ h₁ i₂ h₂ heq
    exact permCol_injOn hA i₁ h₁ i₂ h₂
      (permCol_injOn hB _ (permCol_lt hA h₁) _ (permCol_lt hA h₂) heq)
  · intro j hj
    obtain ⟨k, hk, hkj⟩ := permCol_surjOn hB j hj
    obtain ⟨i, hi, hik⟩ := permCol_surjOn hA k hk
    exact ⟨i, hi, by rw [hik, hkj]⟩
  · intro i hi
    rw [matMul_row hA B hi]
    rcases (permCol_spec hA hi).2.1 with ha | ha <;>
      rcases (permCol_spec hB (permCol_lt hA hi)).2.1 with hb | hb <;>
        rw [ha, hb] <;> simp
  · intro i hi j hj hne
    rw [matMul_row hA B hi]
    rw [permCol_zero hB (permCol_lt hA hi) j hj hne, mul_zero]

lemma trace_eq_iff_eye {d : ℕ} {M : ℕ → ℕ → ℤ} (hM : genPerm d M) :
    traceM d M = d ↔ matEq d M (eyeM d) := by
  constructor
  · intro htr
    have hle : ∀ i ∈ Finset.range d, M i i ≤ 1 := by
      intro i hi
      rcases hM.1 i (Finset.mem_range.1 hi) i (Finset.mem_range.1 hi) with
        h | h | h <;> rw [h] <;> decide
    have hdiag : ∀ i ∈ Finset.range d, M i i = 1 := by
      have hzero : (∑ i ∈ Finset.range d, (1 - M i i)) = 0 := by
        rw [Finset.sum_sub_distrib]
        rw [Finset.sum_const, Finset.card_range, nsmul_eq_mul, mul_one]
        rw [show (∑ i ∈ Finset.range d, M i i) = traceM d M from rfl, htr]
        ring
      intro i hi
      have := (Finset.sum_eq_zero_iff_of_nonneg
        (fun i hi => by linarith [hle i hi])).1 hzero i hi
      linarith
    intro i hi j hj
    by_cases hij : i = j
    · subst hij
      rw [hdiag i (Finset.mem_range.2 hi)]
      simp [eyeM, hi]
    · have hii : M i i = 1 := hdiag i (Finset.mem_range.2 hi)
      have hcol : i = permCol d M i := by
        by_contra hc
        rw [permCol_zero hM hi i hi hc] at hii
        exact absurd hii (by decide)
      rw [permCol_zero hM hi j hj (by rw [← hcol]; exact fun h => hij h.symm)]
      simp [eyeM, hij]
  · intro heq
    unfold traceM
    have : ∀ i ∈ Finset.range d, M i i = 1 := by
      intro i hi
      rw [heq i (Finset.mem_range.1 hi) i (Finset.mem_range.1 hi)]
      simp [eyeM, Finset.mem_range.1 hi]
    rw [Finset.sum_congr rfl this, Finset.sum_const, Finset.card_range,
      nsmul_eq_mul, mul_one]

/-! ## `C2.__init__` (OrderTwoGroup constructor) -/

/-- The identity test of `C2.__init__`: `isclose(trace(h), d)` (exact for
integer generalized permutations). -/
def c2IsEye (d : ℕ) (h : ℕ → ℕ → ℤ) : Prop :=
  traceM d h = d

/-- The involution test of `C2.__init__`: `isclose(trace(h @ h), d)`. -/
def c2IsCyclic (d : ℕ) (h : ℕ → ℕ → ℤ) : Prop :=
  traceM d (matMul d h h) = d

/-- `C2.__init__` accepts `h` iff `h` passes `not is_eye` and `is_cyclic`. -/
def c2Accepts (d : ℕ) (h : ℕ → ℕ → ℤ) : Prop :=
  ¬ c2IsEye d h ∧ c2IsCyclic d h

instance (d : ℕ) (h : ℕ → ℕ → ℤ) : Decidable (c2IsEye d h) := by
  unfold c2IsEye; infer_instance

instance (d : ℕ) (h : ℕ → ℕ → ℤ) : Decidable (c2IsCyclic d h) := by
  unfold c2IsCyclic; infer_instance

instance (d : ℕ) (h : ℕ → ℕ → ℤ) : Decidable (c2Accepts d h) := by
  unfold c2Accepts; infer_instance

/-- C5: `C2` construction on a generalized permutation generator `h` fails
exactly when `h` is the identity or `h·h ≠ I`; every accepted generator
satisfies `h ≠ I` and `h·h = I`.  The trace test is exact: for a generalized
permutation matrix the trace equals `d` iff the matrix is the identity. -/
theorem c5_c2_constructor (d : ℕ) (h : ℕ → ℕ → ℤ) (hP : genPerm d h) :
    (c2Accepts d h ↔
      (¬ matEq d h (eyeM d) ∧ matEq d (matMul d h h) (eyeM d))) ∧
    (∀ M, genPerm d M → (traceM d M = d ↔ matEq d M (eyeM d))) := by
  constructor
  · unfold c2Accepts c2IsEye c2IsCyclic
    rw [trace_eq_iff_eye hP, trace_eq_iff_eye (genPerm_mul hP hP)]
  · intro M hM
    exact trace_eq_iff_eye hM

/-- The `2 × 2` coordinate swap, used as a concrete witness generator. -/
def swapM : ℕ → ℕ → ℤ :=
  fun i j => if (i = 0 ∧ j = 1) ∨ (i = 1 ∧ j = 0) then 1 else 0

/-- Witness for C5 at the concrete generator `swapM`. -/
theorem c5_witness :
    genPerm 2 swapM ∧
    ((c2Accepts 2 swapM ↔
      (¬ matEq 2 swapM (eyeM 2) ∧ matEq 2 (matMul 2 swapM swapM) (eyeM 2))) ∧
    (∀ M, genPerm 2 M → (traceM 2 M = 2 ↔ matEq 2 M (eyeM 2)))) :=
  ⟨by decide, c5_c2_constructor 2 swapM (by decide)⟩

/-! ## Block-matrix algebra -/

lemma matEq_refl (d : ℕ) (A : ℕ → ℕ → ℤ) : matEq d A A :=
  fun _ _ _ _ => rfl

lemma matEq_symm {d : ℕ} {A B : ℕ → ℕ → ℤ} (h : matEq d A B) : matEq d B A :=
  fun i hi j hj => (h i hi j hj).symm

lemma matEq_trans {d : ℕ} {A B C : ℕ → ℕ → ℤ} (h₁ : matEq d A B)
    (h₂ : matEq d B C) : matEq d A C :=
  fun i hi j hj => (h₁ i hi j hj).trans (h₂ i hi j hj)

lemma matMul_assoc (d : ℕ) (A B C : ℕ → ℕ → ℤ) :
    matMul d (matMul d A B) C = matMul d A (matMul d B C) := by
  funext i j
  unfold matMul
  have hstep : ∀ k, (∑ l ∈ Finset.range d, A i l * B l k) * C k j
      = ∑ l ∈ Finset.range d, A i l * (B l k * C k j) := by
    intro k
    rw [Finset.sum_mul]
    apply Finset.sum_congr rfl
    intro l _
    ring
  rw [Finset.sum_congr rfl (fun k _ => hstep k), Finset.sum_comm]
  apply Finset.sum_congr rfl
  intro l _
  rw [Finset.mul_sum]

lemma matMul_congr_left {d : ℕ} {A A' : ℕ → ℕ → ℤ} (B : ℕ → ℕ → ℤ)
    (h : matEq d A A') : matEq d (matMul d A B) (matMul d A' B) := by
  intro i hi j _
  unfold matMul
  apply Finset.sum_congr rfl
  intro k hk
  rw [h i hi k (Finset.mem_range.1 hk)]

lemma matMul_congr_right {d : ℕ} (A : ℕ → ℕ → ℤ) {B B' : ℕ → ℕ → ℤ}
    (h : matEq d B B') : matEq d (matMul d A B) (matMul d A B') := by
  intro i _ j hj
  unfold matMul
  apply Finset.sum_congr rfl
  intro k hk
  rw [h k (Finset.mem_range.1 hk) j hj]

lemma matMul_eye_left (d : ℕ) (B : ℕ → ℕ → ℤ) :
    matEq d (matMul d (eyeM d) B) B := by
  intro i hi j _
  unfold matMul
  rw [Finset.sum_eq_single i]
  · simp [eyeM, hi]
  · intro k hk hki
    have : eyeM d i k = 0 := by
      simp only [eyeM, ite_eq_right_iff]
      rintro ⟨-, -, hik⟩
      exact absurd hik.symm hki
    rw [this, zero_mul]
  · intro hnm
    exact absurd (Finset.mem_range.2 hi) hnm

lemma matMul_eye_right (d : ℕ) (A : ℕ → ℕ → ℤ) :
    matEq d (matMul d A (eyeM d)) A := by
  intro i _ j hj
  unfold matMul
  rw [Finset.sum_eq_single j]
  · simp [eyeM, hj]
  · intro k hk hkj
    have : eyeM d k j = 0 := by
      simp only [eyeM, ite_eq_right_iff]
      rintro ⟨-, -, hkj'⟩
      exact absurd hkj' hkj
    rw [this, mul_zero]
  · intro hnm
    exact absurd (Finset.mem_range.2 hj) hnm

/-! ## `Klein4.__init__` (KleinFourGroup constructor) -/

/-- The full acceptance condition of `Klein4.__init__` on two generators:
the `Sym.__init__` orthonormality asserts plus the four `np.allclose`
asserts of `Klein4.__init__` (`a·a = I`, `b·b = I`, `(a·b)·(a·b) = I`,
`a·b ≠ I`).  Note the source's non-identity checks on `a` and `b`
themselves are commented out. -/
def klein4Accepts (d : ℕ) (a b : ℕ → ℕ → ℤ) : Prop :=
  symOrthonormal d a ∧ symOrthonormal d b ∧
  matEq d (matMul d a a) (eyeM d) ∧ matEq d (matMul d b b) (eyeM d) ∧
  matEq d (matMul d (matMul d a b) (matMul d a b)) (eyeM d) ∧
  ¬ matEq d (matMul d a b) (eyeM d)

instance (d : ℕ) (a b : ℕ → ℕ → ℤ) : Decidable (klein4Accepts d a b) := by
  unfold klein4Accepts; infer_instance

/-- `Klein4.discrete_actions`: `[I, a, b, a @ b]`. -/
def kleinActions (d : ℕ) (a b : ℕ → ℕ → ℤ) : List (ℕ → ℕ → ℤ) :=
  [eyeM d, a, b, matMul d a b]

/-- C6 counterexample: the pair `(I, swap)` on `d = 2` violates
involutive-non-identity of `a` (it *is* the identity), yet every check of
`Klein4.__init__` passes — the `a ≠ I` assert is commented out in the
source — and the four discrete actions `[I, I, swap, swap]` are not
pairwise distinct. -/
theorem c6_counterexample :
    klein4Accepts 2 (eyeM 2) swapM ∧
    ¬ List.Pairwise (fun X Y => ¬ matEq 2 X Y)
        (kleinActions 2 (eyeM 2) swapM) := by
  constructor
  · decide
  · decide

/-- C6 (amended): `Klein4` construction rejects any pair violating
`a·a = I`, `b·b = I`, `(a·b)·(a·b) = I` or `a·b ≠ I` (but does not check
`a ≠ I`, `b ≠ I`); for every accepted pair whose generators are themselves
not the identity, the four discrete actions `[I, a, b, a·b]` are pairwise
distinct and each is its own inverse. -/
theorem c6_klein_distinct (d : ℕ) (a b : ℕ → ℕ → ℤ)
    (hacc : klein4Accepts d a b)
    (ha : ¬ matEq d a (eyeM d)) (hb : ¬ matEq d b (eyeM d)) :
    List.Pairwise (fun X Y => ¬ matEq d X Y) (kleinActions d a b) ∧
    ∀ X ∈ kleinActions d a b, matEq d (matMul d X X) (eyeM d) := by
  obtain ⟨-, -, haa, hbb, habab, hnab⟩ := hacc
  have hEa : ¬ matEq d (eyeM d) a := fun h => ha (matEq_symm h)
  have hEb : ¬ matEq d (eyeM d) b := fun h => hb (matEq_symm h)
  have hEab : ¬ matEq d (eyeM d) (matMul d a b) := fun h => hnab (matEq_symm h)
  have hab' : ¬ matEq d a b := by
    intro h
    exact hnab (matEq_trans (matMul_congr_right a (matEq_symm h)) haa)
  have haab : ¬ matEq d a (matMul d a b) := by
    intro h
    apply hb
    have h₁ : matEq d b (matMul d (eyeM d) b) := matEq_symm (matMul_eye_left d b)
    have h₂ : matEq d (matMul d (eyeM d) b) (matMul d (matMul d a a) b) :=
      matMul_congr_left b (matEq_symm haa)
    have h₃ : matMul d (matMul d a a) b = matMul d a (matMul d a b) :=
      matMul_assoc d a a b
    have h₄ : matEq d (matMul d a (matMul d a b)) (matMul d a a) :=
      matMul_congr_right a (matEq_symm h)
    exact matEq_trans (matEq_trans (matEq_trans h₁ h₂) (h₃ ▸ matEq_refl d _))
      (matEq_trans h₄ haa)
  have hbab : ¬ matEq d b (matMul d a b) := by
    intro h
    apply ha
    have h₁ : matEq d (eyeM d) (matMul d b b) := matEq_symm hbb
    have h₂ : matEq d (matMul d b b) (matMul d (matMul d a b) b) :=
      matMul_congr_left b h
    have h₃ : matMul d (matMul d a b) b = matMul d a (matMul d b b) :=
      matMul_assoc d a b b
    have h₄ : matEq d (matMul d a (matMul d b b)) (matMul d a (eyeM d)) :=
      matMul_congr_right a hbb
    have h₅ : matEq d (matMul d a (eyeM d)) a := matMul_eye_right d a
    exact matEq_symm (matEq_trans (matEq_trans (matEq_trans h₁ h₂)
      (h₃ ▸ matEq_refl d _)) (matEq_trans h₄ h₅))
  constructor
  · refine List.Pairwise.cons ?_ (List.Pairwise.cons ?_
      (List.Pairwise.cons ?_ (List.pairwise_singleton _ _)))
    · intro X hX
      simp only [List.mem_cons, List.not_mem_nil, or_false] at hX
      rcases hX with h | h | h
      · rw [h]; exact hEa
      · rw [h]; exact hEb
      · rw [h]; exact hEab
    · intro X hX
      simp only [List.mem_cons, List.not_mem_nil, or_false] at hX
      rcases hX with h | h
      · rw [h]; exact hab'
      · rw [h]; exact haab
    · intro X hX
      simp only [List.mem_cons, List.not_mem_nil, or_false] at hX
      rw [hX]; exact hbab
  · intro X hX
    simp only [kleinActions, List.mem_cons, List.not_mem_nil, or_false] at hX
    rcases hX with h | h | h | h
    · rw [h]; exact matMul_eye_left d (eyeM d)
    · rw [h]; exact haa
    · rw [h]; exact hbb
    · rw [h]; exact habab

/-- The negated `2 × 2` identity, a second witness generator. -/
def negM : ℕ → ℕ → ℤ :=
  fun i j => if i = j ∧ i < 2 then -1 else 0

/-- Witness for C6 at the concrete accepted pair `(swap, -I)` on `d = 2`. -/
theorem c6_witness :
    (klein4Accepts 2 swapM negM ∧ ¬ matEq 2 swapM (eyeM 2) ∧
      ¬ matEq 2 negM (eyeM 2)) ∧
    (List.Pairwise (fun X Y => ¬ matEq 2 X Y) (kleinActions 2 swapM negM) ∧
    ∀ X ∈ kleinActions 2 swapM negM, matEq 2 (matMul 2 X X) (eyeM 2)) :=
  ⟨⟨by decide, by decide, by decide⟩,
    c6_klein_distinct 2 swapM negM (by decide) (by decide) (by decide)⟩

/-! ## Orbit discovery (`C2.get_equivariant_basis`, cycle loop)

The inner `while` loop follows `w` while the next index is still pending;
the outer loop pops an arbitrary pending index (`set.pop`) to start each
cycle.  The pop order is modelled by an arbitrary choice function that
returns a member of every non-empty finset.  Fuel arguments (bounded by the
number of pending indices) make the loops structurally recursive. -/

/-- Inner loop: starting from `a` (already removed from `pending`), follow
`f` while `f a ∈ pending`, accumulating the visited indices and removing
them from `pending`. -/
def followCycle (f : ℕ → ℕ) : ℕ → ℕ → Finset ℕ → List ℕ × Finset ℕ
  | 0, a, pending => ([a], pending)
  | Nat.succ fuel, a, pending =>
    if f a ∈ pending then
      let r := followCycle f fuel (f a) (pending.erase (f a))
      (a :: r.1, r.2)
    else ([a], pending)

/-- Outer loop: while some index is pending, pop one (via `choose`), run the
inner loop, and record the resulting cycle. -/
def orbitLoop (f : ℕ → ℕ) (choose : Finset ℕ → ℕ) :
    ℕ → Finset ℕ → List (List ℕ)
  | 0, _ => []
  | Nat.succ fuel, pending =>
    if pending.Nonempty then
      let a := choose pending
      let r := followCycle f (pending.erase a).card a (pending.erase a)
      r.1 :: orbitLoop f choose fuel r.2
    else []

/-- The cycle decomposition computed by `get_equivariant_basis` on `P`:
`w = |P| @ arange(d)` followed by the two loops over `pending = range(d)`. -/
def cyclesOf (d : ℕ) (P : ℕ → ℕ → ℤ) (choose : Finset ℕ → ℕ) :
    List (List ℕ) :=
  orbitLoop (permCol d P) choose d (Finset.range d)

/-- A model of `set.pop`: any function returning a member of every
non-empty finset. -/
def validChoose (choose : Finset ℕ → ℕ) : Prop :=
  ∀ s : Finset ℕ, s.Nonempty → choose s ∈ s

/-- A concrete pop order (smallest pending index), used in witnesses. -/
def chooseMin (s : Finset ℕ) : ℕ :=
  if h : s.Nonempty then s.min' h else 0

lemma chooseMin_valid : validChoose chooseMin := by
  intro s hs
  rw [chooseMin, dif_pos hs]
  exact s.min'_mem hs

lemma followCycle_shape (f : ℕ → ℕ) (fuel a : ℕ) (pending : Finset ℕ) :
    ∃ t, (followCycle f fuel a pending).1 = a :: t := by
  cases fuel with
  | zero => exact ⟨[], rfl⟩
  | succ fuel =>
    unfold followCycle
    by_cases h : f a ∈ pending
    · rw [if_pos h]
      exact ⟨_, rfl⟩
    · rw [if_neg h]
      exact ⟨[], rfl⟩

lemma followCycle_subset (f : ℕ → ℕ) (fuel : ℕ) :
    ∀ a pending, (followCycle f fuel a pending).2 ⊆ pending := by
  induction fuel with
  | zero => intro a pending; exact Finset.Subset.refl _
  | succ fuel ih =>
    intro a pending
    unfold followCycle
    by_cases h : f a ∈ pending
    · rw [if_pos h]
      exact (ih (f a) (pending.erase (f a))).trans (Finset.erase_subset _ _)
    · rw [if_neg h]

lemma followCycle_toFinset (f : ℕ → ℕ) (fuel : ℕ) :
    ∀ a pending, (followCycle f fuel a pending).1.toFinset =
      insert a (pending \ (followCycle f fuel a pending).2) := by
  induction fuel with
  | zero =>
    intro a pending
    simp [followCycle]
  | succ fuel ih =>
    intro a pending
    unfold followCycle
    by_cases h : f a ∈ pending
    · rw [if_pos h]
      have hsub := followCycle_subset f fuel (f a) (pending.erase (f a))
      have hdiff : pending \ (followCycle f fuel (f a) (pending.erase (f a))).2 =
          insert (f a) ((pending.erase (f a)) \
            (followCycle f fuel (f a) (pending.erase (f a))).2) := by
        apply Finset.ext
        intro x
        simp only [Finset.mem_sdiff, Finset.mem_insert, Finset.mem_erase]
        constructor
        · rintro ⟨hxp, hxr⟩
          by_cases hxa : x = f a
          · exact Or.inl hxa
          · exact Or.inr ⟨⟨hxa, hxp⟩, hxr⟩
        · rintro (hxa | ⟨⟨hxne, hxp⟩, hxr⟩)
          · subst hxa
            refine ⟨h, fun hc => ?_⟩
            exact (Finset.ne_of_mem_erase (hsub hc)) rfl
          · exact ⟨hxp, hxr⟩
      simp only [List.toFinset_cons]
      rw [ih (f a) (pending.erase (f a)), hdiff]
    · rw [if_neg h]
      simp

lemma followCycle_nodup (f : ℕ → ℕ) (fuel : ℕ) :
    ∀ a pending, a ∉ pending → (followCycle f fuel a pending).1.Nodup := by
  induction fuel with
  | zero =>
    intro a pending _
    exact List.nodup_singleton a
  | succ fuel ih =>
    intro a pending ha
    unfold followCycle
    by_cases h : f a ∈ pending
    · rw [if_pos h]
      refine List.Nodup.cons ?_ (ih (f a) (pending.erase (f a))
        (Finset.not_mem_erase _ _))
      intro hmem
      have : a ∈ (followCycle f fuel (f a) (pending.erase (f a))).1.toFinset :=
        List.mem_toFinset.2 hmem
      rw [followCycle_toFinset] at this
      rcases Finset.mem_insert.1 this with h1 | h1
      · rw [h1] at ha
        exact ha h
      · exact ha (Finset.mem_of_mem_erase (Finset.mem_sdiff.1 h1).1)
    · rw [if_neg h]
      exact List.nodup_singleton a

lemma followCycle_iterates (f : ℕ → ℕ) (fuel : ℕ) :
    ∀ a pending, (followCycle f fuel a pending).1 =
      (List.range (followCycle f fuel a pending).1.length).map
        (fun k => f^[k] a) := by
  induction fuel with
  | zero =>
    intro a pending
    simp [followCycle]
  | succ fuel ih =>
    intro a pending
    unfold followCycle
    by_cases h : f a ∈ pending
    · rw [if_pos h]
      simp only
      have hr := ih (f a) (pending.erase (f a))
      set r := followCycle f fuel (f a) (pending.erase (f a)) with hrdef
      rw [List.length_cons, List.range_succ_eq_map, List.map_cons,
        Function.iterate_zero_apply]
      congr 1
      rw [List.map_map]
      conv_lhs => rw [hr]
      apply List.map_congr_left
      intro k _
      simp [Function.iterate_succ_apply]
    · rw [if_neg h]
      simp

lemma followCycle_last (f : ℕ → ℕ) (fuel : ℕ) :
    ∀ a pending, pending.card ≤ fuel → ∀ x,
      (followCycle f fuel a pending).1.getLast? = some x →
      f x ∉ (followCycle f fuel a pending).2 := by
  induction fuel with
  | zero =>
    intro a pending hcard x hx
    have hempty : pending = ∅ := Finset.card_eq_zero.1 (Nat.le_zero.1 hcard)
    rw [hempty]
    exact Finset.not_mem_empty _
  | succ fuel ih =>
    intro a pending hcard x hx
    unfold followCycle at hx ⊢
    by_cases h : f a ∈ pending
    · rw [if_pos h] at hx ⊢
      simp only at hx ⊢
      obtain ⟨t, ht⟩ := followCycle_shape f fuel (f a) (pending.erase (f a))
      have hx' : (followCycle f fuel (f a) (pending.erase (f a))).1.getLast? =
          some x := by
        rw [ht] at hx ⊢
        rw [List.getLast?_cons_cons] at hx
        exact hx
      apply ih (f a) (pending.erase (f a)) ?_ x hx'
      rw [Finset.card_erase_of_mem h]
      omega
    · rw [if_neg h] at hx ⊢
      simp only [List.getLast?_singleton, Option.some.injEq] at hx
      rw [← hx]
      exact h

lemma followCycle_length (f : ℕ → ℕ) (fuel a : ℕ) (pending : Finset ℕ)
    (ha : a ∉ pending) :
    (followCycle f fuel a pending).1.length =
      1 + (pending.card - (followCycle f fuel a pending).2.card) := by
  have hnodup := followCycle_nodup f fuel a pending ha
  have hfin := followCycle_toFinset f fuel a pending
  have hsub := followCycle_subset f fuel a pending
  have hlen : (followCycle f fuel a pending).1.length =
      (followCycle f fuel a pending).1.toFinset.card :=
    (List.toFinset_card_of_nodup hnodup).symm
  rw [hlen, hfin, Finset.card_insert_of_not_mem
    (fun hc => ha (Finset.mem_sdiff.1 hc).1), Finset.card_sdiff hsub]
  omega

lemma orbitLoop_partition (f : ℕ → ℕ) (choose : Finset ℕ → ℕ)
    (hchoose : validChoose choose) (fuel : ℕ) :
    ∀ pending, pending.card ≤ fuel →
      (∀ c ∈ orbitLoop f choose fuel pending, c ≠ [] ∧ c.Nodup) ∧
      List.Pairwise (fun c₁ c₂ => ∀ x ∈ c₁, x ∉ c₂)
        (orbitLoop f choose fuel pending) ∧
      (∀ x, (∃ c ∈ orbitLoop f choose fuel pending, x ∈ c) ↔ x ∈ pending) ∧
      ((orbitLoop f choose fuel pending).map List.length).sum =
        pending.card := by
  induction fuel with
  | zero =>
    intro pending hcard
    have hempty : pending = ∅ := Finset.card_eq_zero.1 (Nat.le_zero.1 hcard)
    subst hempty
    refine ⟨by simp [orbitLoop], by simp [orbitLoop], ?_, by simp [orbitLoop]⟩
    intro x
    simp [orbitLoop]
  | succ fuel ih =>
    intro pending hcard
    by_cases hne : pending.Nonempty
    · have hloop : orbitLoop f choose (fuel + 1) pending =
          (followCycle f (pending.erase (choose pending)).card (choose pending)
            (pending.erase (choose pending))).1 ::
          orbitLoop f choose fuel
            (followCycle f (pending.erase (choose pending)).card (choose pending)
              (pending.erase (choose pending))).2 := by
        simp only [orbitLoop]
        rw [if_pos hne]
      have hmem : choose pending ∈ pending := hchoose pending hne
      have hanp : choose pending ∉ pending.erase (choose pending) :=
        Finset.not_mem_erase _ _
      set a := choose pending
      set p1 := pending.erase a with hp1
      set r := followCycle f p1.card a p1 with hrdef
      have hcard1 : p1.card = pending.card - 1 := Finset.card_erase_of_mem hmem
      have hposcard : 1 ≤ pending.card := Finset.card_pos.2 hne
      have hrsub : r.2 ⊆ p1 := followCycle_subset f p1.card a p1
      have hrcard : r.2.card ≤ fuel := by
        have := Finset.card_le_card hrsub
        omega
      have hrfin : r.1.toFinset = insert a (p1 \ r.2) :=
        followCycle_toFinset f p1.card a p1
      have hrnodup : r.1.Nodup := followCycle_nodup f p1.card a p1 hanp
      have hrne : r.1 ≠ [] := by
        obtain ⟨t, ht⟩ := followCycle_shape f p1.card a p1
        rw [ht]
        exact List.cons_ne_nil _ _
      have hrlen : r.1.length = 1 + (p1.card - r.2.card) :=
        followCycle_length f p1.card a p1 hanp
      obtain ⟨ihall, ihpw, ihmem, ihsum⟩ := ih r.2 hrcard
      have hmemr1 : ∀ x, x ∈ r.1 ↔ (x = a ∨ (x ∈ p1 ∧ x ∉ r.2)) := by
        intro x
        rw [← List.mem_toFinset, hrfin, Finset.mem_insert, Finset.mem_sdiff]
      have hnotr2 : ∀ x ∈ r.1, x ∉ r.2 := by
        intro x hx
        rcases (hmemr1 x).1 hx with h | h
        · subst h
          exact fun hc => hanp (hrsub hc)
        · exact h.2
      refine ⟨?_, ?_, ?_, ?_⟩
      · intro c hc
        rw [hloop] at hc
        rcases List.mem_cons.1 hc with h | h
        · subst h
          exact ⟨hrne, hrnodup⟩
        · exact ihall c h
      · rw [hloop]
        refine List.Pairwise.cons ?_ ihpw
        intro c hc x hx
        intro hxc
        have hxr2 : x ∈ r.2 := (ihmem x).1 ⟨c, hc, hxc⟩
        exact hnotr2 x hx hxr2
      · intro x
        rw [hloop]
        constructor
        · rintro ⟨c, hc, hxc⟩
          rcases List.mem_cons.1 hc with h | h
          · subst h
            rcases (hmemr1 x).1 hxc with h1 | h1
            · rw [h1]; exact hmem
            · exact Finset.mem_of_mem_erase h1.1
          · have hx2 : x ∈ r.2 := (ihmem x).1 ⟨c, h, hxc⟩
            exact Finset.mem_of_mem_erase (hrsub hx2)
        · intro hxp
          by_cases hxa : x = a
          · exact ⟨r.1, List.mem_cons_self _ _, (hmemr1 x).2 (Or.inl hxa)⟩
          · have hxp1 : x ∈ p1 := Finset.mem_erase.2 ⟨hxa, hxp⟩
            by_cases hxr : x ∈ r.2
            · obtain ⟨c, hc, hxc⟩ := (ihmem x).2 hxr
              exact ⟨c, List.mem_cons_of_mem _ hc, hxc⟩
            · exact ⟨r.1, List.mem_cons_self _ _,
                (hmemr1 x).2 (Or.inr ⟨hxp1, hxr⟩)⟩
      · rw [hloop]
        simp only [List.map_cons, List.sum_cons]
        rw [ihsum, hrlen]
        have := Finset.card_le_card hrsub
        omega
    · unfold orbitLoop
      rw [if_neg hne]
      have hempty : pending = ∅ := Finset.not_nonempty_iff_eq_empty.1 hne
      subst hempty
      refine ⟨by simp, by simp, ?_, by simp⟩
      intro x
      simp

/-- C2: for every valid generalized permutation matrix `P` (and any pop
order), the orbit-discovery loop of `get_equivariant_basis` produces a list
of cycles that partitions `{0,…,d−1}` exactly: pairwise disjoint, union the
full index set, sizes summing to `d`. -/
theorem c2_orbit_partition (d : ℕ) (P : ℕ → ℕ → ℤ) (choose : Finset ℕ → ℕ)
    (hP : genPerm d P) (hchoose : validChoose choose) :
    List.Pairwise (fun c₁ c₂ => ∀ x ∈ c₁, x ∉ c₂) (cyclesOf d P choose) ∧
    (∀ x, (∃ c ∈ cyclesOf d P choose, x ∈ c) ↔ x < d) ∧
    ((cyclesOf d P choose).map List.length).sum = d := by
  have h := orbitLoop_partition (permCol d P) choose hchoose d (Finset.range d)
    (by rw [Finset.card_range])
  unfold cyclesOf
  refine ⟨h.2.1, ?_, ?_⟩
  · intro x
    rw [h.2.2.1 x, Finset.mem_range]
  · rw [h.2.2.2, Finset.card_range]

/-- The generator of the spec's scenario 5 (`oneline_to_matrix([1,0,2],
signs=[1,-1,1])`), used as a concrete witness input. -/
def exP : ℕ → ℕ → ℤ := fun i j =>
  if (i = 0 ∧ j = 1) ∨ (i = 2 ∧ j = 2) then 1
  else if i = 1 ∧ j = 0 then -1 else 0

/-- Witness for C2 at the concrete generator `exP` with the smallest-first
pop order. -/
theorem c2_witness :
    genPerm 3 exP ∧
    (List.Pairwise (fun c₁ c₂ => ∀ x ∈ c₁, x ∉ c₂) (cyclesOf 3 exP chooseMin) ∧
    (∀ x, (∃ c ∈ cyclesOf 3 exP chooseMin, x ∈ c) ↔ x < 3) ∧
    ((cyclesOf 3 exP chooseMin).map List.length).sum = 3) :=
  ⟨by decide, c2_orbit_partition 3 exP chooseMin (by decide) chooseMin_valid⟩

/-! ## The equivariant basis (`C2.get_equivariant_basis`, column loop) -/

/-- The per-cycle row signs `p = np.sum(P[cyc, :], axis=1)`. -/
def cycleSigns (d : ℕ) (P : ℕ → ℕ → ℤ) (cyc : List ℕ) : List ℤ :=
  cyc.map (rowSign d P)

/-- The basis column contributed by a cycle: `Q[cyc, -1] =
[np.prod(p[i:-1]) for i in range(len(p))]`, zero outside the cycle. -/
def cycleCol (d : ℕ) (P : ℕ → ℕ → ℤ) (cyc : List ℕ) : ℕ → ℤ :=
  fun x =>
    if x ∈ cyc then (((cycleSigns d P cyc).drop (cyc.indexOf x)).dropLast).prod
    else 0

/-- The columns of `Q`: one per cycle whose total sign product
`np.prod(p)` equals `1`, in cycle-discovery order. -/
def equivariantBasis (d : ℕ) (P : ℕ → ℕ → ℤ) (choose : Finset ℕ → ℕ) :
    List (ℕ → ℤ) :=
  (cyclesOf d P choose).filterMap (fun cyc =>
    if (cycleSigns d P cyc).prod = 1 then some (cycleCol d P cyc) else none)

/-- The orbit of `x` under `f` inside `{0,…,d−1}` (all iterates; for a
permutation of `{0,…,d−1}`, `d` iterates suffice). -/
def orbitOf (d : ℕ) (f : ℕ → ℕ) (x : ℕ) : Finset ℕ :=
  (Finset.range d).image (fun k => f^[k] x)

/-- The set of orbits of `f` on `{0,…,d−1}`. -/
def permOrbits (d : ℕ) (f : ℕ → ℕ) : Finset (Finset ℕ) :=
  (Finset.range d).image (orbitOf d f)

/-- The number of orbits of `P`'s underlying unsigned permutation whose
row-sign product is `+1`. -/
def posOrbitCount (d : ℕ) (P : ℕ → ℕ → ℤ) : ℕ :=
  ((permOrbits d (permCol d P)).filter
    (fun o => (∏ a ∈ o, rowSign d P a) = 1)).card

lemma nodup_map_range_inj {L : ℕ} {g : ℕ → ℕ}
    (h : ((List.range L).map g).Nodup) :
    ∀ i < L, ∀ j < L, g i = g j → i = j := by
  have hpw := List.pairwise_iff_getElem.1 h
  intro i hi j hj hg
  by_contra hne
  rcases Nat.lt_or_ge i j with hlt | hge
  · have := hpw i j (by simpa) (by simpa) hlt
    apply this
    simp [hg]
  · have hlt : j < i := by omega
    have := hpw j i (by simpa) (by simpa) hlt
    apply this
    simp [hg]

lemma iterate_period {f : ℕ → ℕ} {L : ℕ} {a : ℕ} (hwrap : f^[L] a = a)
    (m : ℕ) : f^[m] a = f^[m % L] a := by
  conv_lhs => rw [← Nat.mod_add_div m L]
  rw [Function.iterate_add_apply, Function.iterate_mul]
  rw [Function.iterate_fixed hwrap (m / L)]

/-- Every cycle produced by the orbit loop over a subset of `{0,…,d−1}`
(whose complement is closed under taking `f`-preimages) is a genuine
`f`-cycle: the list of iterates of its head, wrapping back to the head. -/
lemma orbitLoop_cycles (f : ℕ → ℕ) (choose : Finset ℕ → ℕ)
    (hchoose : validChoose choose) (d : ℕ)
    (hf : ∀ i < d, f i < d)
    (hinj : ∀ i₁ < d, ∀ i₂ < d, f i₁ = f i₂ → i₁ = i₂) (fuel : ℕ) :
    ∀ pending, pending.card ≤ fuel → pending ⊆ Finset.range d →
      (∀ y ∈ Finset.range d \ pending,
        ∃ x ∈ Finset.range d \ pending, f x = y) →
      ∀ c ∈ orbitLoop f choose fuel pending,
        c = (List.range c.length).map (fun k => f^[k] (c.getD 0 0)) ∧
        f^[c.length] (c.getD 0 0) = c.getD 0 0 := by
  induction fuel with
  | zero =>
    intro pending _ _ _ c hc
    simp [orbitLoop] at hc
  | succ fuel ih =>
    intro pending hcard hsub hD c hc
    by_cases hne : pending.Nonempty
    · have hloop : orbitLoop f choose (fuel + 1) pending =
          (followCycle f (pending.erase (choose pending)).card (choose pending)
            (pending.erase (choose pending))).1 ::
          orbitLoop f choose fuel
            (followCycle f (pending.erase (choose pending)).card (choose pending)
              (pending.erase (choose pending))).2 := by
        simp only [orbitLoop]
        rw [if_pos hne]
      have hmem : choose pending ∈ pending := hchoose pending hne
      have hanp : choose pending ∉ pending.erase (choose pending) :=
        Finset.not_mem_erase _ _
      set a := choose pending
      set p1 := pending.erase a with hp1
      set r := followCycle f p1.card a p1 with hrdef
      have hip : insert a p1 = pending := Finset.insert_erase hmem
      have hrsub : r.2 ⊆ p1 := followCycle_subset f p1.card a p1
      have hrfin : r.1.toFinset = insert a (p1 \ r.2) :=
        followCycle_toFinset f p1.card a p1
      have hrnodup : r.1.Nodup := followCycle_nodup f p1.card a p1 hanp
      have hmemr1 : ∀ x, x ∈ r.1 ↔ (x = a ∨ (x ∈ p1 ∧ x ∉ r.2)) := by
        intro x
        rw [← List.mem_toFinset, hrfin, Finset.mem_insert, Finset.mem_sdiff]
      have hr1pend : ∀ x ∈ r.1, x ∈ pending := by
        intro x hx
        rcases (hmemr1 x).1 hx with h | h
        · rw [h]; exact hmem
        · exact Finset.mem_of_mem_erase h.1
      have hr1lt : ∀ x ∈ r.1, x < d := by
        intro x hx
        exact Finset.mem_range.1 (hsub (hr1pend x hx))
      have hnotr2 : ∀ x ∈ r.1, x ∉ r.2 := by
        intro x hx
        rcases (hmemr1 x).1 hx with h | h
        · rw [h]; exact fun hc => hanp (hrsub hc)
        · exact h.2
      obtain ⟨t, ht⟩ := followCycle_shape f p1.card a p1
      have hhd : r.1.getD 0 0 = a := by rw [ht]; rfl
      have hshape : r.1 = (List.range r.1.length).map (fun k => f^[k] a) := by
        have := followCycle_iterates f p1.card a p1
        rw [← hrdef] at this
        exact this
      have hL : 1 ≤ r.1.length := by rw [ht]; simp
      have hmemiter : ∀ k < r.1.length, f^[k] a ∈ r.1 := by
        intro k hk
        rw [hshape]
        exact List.mem_map.2 ⟨k, List.mem_range.2 hk, rfl⟩
      have hgetr1 : ∀ k, k < r.1.length → r.1.getD k 0 = f^[k] a := by
        intro k hk
        conv_lhs => rw [hshape]
        rw [List.getD_eq_getElem _ _ (by simpa using hk)]
        simp
      have hlast : r.1.getLast? = some (f^[r.1.length - 1] a) := by
        have h1 : r.1.getD (r.1.length - 1) 0 = f^[r.1.length - 1] a :=
          hgetr1 _ (by omega)
        rw [List.getD_eq_getElem _ _ (by omega)] at h1
        rw [List.getLast?_eq_getElem?, List.getElem?_eq_getElem (by omega), h1]
      have hflast : f (f^[r.1.length - 1] a) ∉ r.2 := by
        apply followCycle_last f p1.card a p1 (le_refl _) _ hlast
      have hwrapstep : f (f^[r.1.length - 1] a) = f^[r.1.length] a := by
        conv_rhs => rw [show r.1.length = (r.1.length - 1) + 1 by omega]
        rw [Function.iterate_succ_apply']
      have hlastlt : f^[r.1.length - 1] a < d :=
        hr1lt _ (hmemiter _ (by omega))
      have hwrap : f^[r.1.length] a = a := by
        rw [← hwrapstep]
        set last := f^[r.1.length - 1] a with hlastdef
        by_cases hfp : f last ∈ pending
        · have hfr1 : f last ∈ r.1 := by
            apply (hmemr1 (f last)).2
            by_cases hfa : f last = a
            · exact Or.inl hfa
            · exact Or.inr ⟨Finset.mem_erase.2 ⟨hfa, hfp⟩, hflast⟩
          rw [hshape] at hfr1
          obtain ⟨j, hj, hjeq⟩ := List.mem_map.1 hfr1
          rw [List.mem_range] at hj
          cases j with
          | zero => exact hjeq.symm
          | succ j' =>
            exfalso
            rw [Function.iterate_succ_apply'] at hjeq
            have hj'lt : j' < r.1.length := by omega
            have hj'd : f^[j'] a < d := hr1lt _ (hmemiter j' hj'lt)
            have heq : last = f^[j'] a := hinj _ hlastlt _ hj'd hjeq.symm
            have hnd : r.1.Nodup := hrnodup
            rw [hshape] at hnd
            have := nodup_map_range_inj hnd (r.1.length - 1) (by omega) j'
              hj'lt (by rw [← hlastdef, heq])
            omega
        · exfalso
          have hfd : f last < d := hf _ hlastlt
          obtain ⟨x, hx, hxeq⟩ := hD (f last)
            (Finset.mem_sdiff.2 ⟨Finset.mem_range.2 hfd, hfp⟩)
          rw [Finset.mem_sdiff, Finset.mem_range] at hx
          have : x = last := hinj x hx.1 last hlastlt hxeq
          rw [this] at hx
          exact hx.2 (hr1pend last (hmemiter _ (by omega)))
      rw [hloop] at hc
      rcases List.mem_cons.1 hc with hceq | hcrec
      · subst hceq
        rw [hhd]
        exact ⟨hshape, hwrap⟩
      · have hr2sub : r.2 ⊆ Finset.range d := fun x hx =>
          hsub (Finset.mem_of_mem_erase (hrsub hx))
        have hr2card : r.2.card ≤ fuel := by
          have h1 := Finset.card_le_card hrsub
          have h2 : p1.card = pending.card - 1 := Finset.card_erase_of_mem hmem
          have h3 : 1 ≤ pending.card := Finset.card_pos.2 hne
          omega
        have hD2 : ∀ y ∈ Finset.range d \ r.2,
            ∃ x ∈ Finset.range d \ r.2, f x = y := by
          intro y hy
          rw [Finset.mem_sdiff, Finset.mem_range] at hy
          by_cases hyp : y ∈ pending
          · have hyr1 : y ∈ r.1 := by
              apply (hmemr1 y).2
              by_cases hya : y = a
              · exact Or.inl hya
              · exact Or.inr ⟨Finset.mem_erase.2 ⟨hya, hyp⟩, hy.2⟩
            rw [hshape] at hyr1
            obtain ⟨j, hj, hjeq⟩ := List.mem_map.1 hyr1
            rw [List.mem_range] at hj
            cases j with
            | zero =>
              refine ⟨f^[r.1.length - 1] a, ?_, ?_⟩
              · rw [Finset.mem_sdiff, Finset.mem_range]
                exact ⟨hlastlt, hnotr2 _ (hmemiter _ (by omega))⟩
              · rw [hwrapstep, hwrap]
                exact hjeq
            | succ j' =>
              have hj'lt : j' < r.1.length := by omega
              refine ⟨f^[j'] a, ?_, ?_⟩
              · rw [Finset.mem_sdiff, Finset.mem_range]
                exact ⟨hr1lt _ (hmemiter j' hj'lt), hnotr2 _ (hmemiter j' hj'lt)⟩
              · rw [← hjeq, Function.iterate_succ_apply']
          · obtain ⟨x, hx, hxeq⟩ := hD y
              (Finset.mem_sdiff.2 ⟨Finset.mem_range.2 hy.1, hyp⟩)
            rw [Finset.mem_sdiff] at hx
            refine ⟨x, ?_, hxeq⟩
            rw [Finset.mem_sdiff]
            exact ⟨hx.1, fun hc2 =>
              hx.2 (Finset.mem_of_mem_erase (hrsub hc2))⟩
        exact ih r.2 hr2card hr2sub hD2 c hcrec
    · unfold orbitLoop at hc
      rw [if_neg hne] at hc
      simp at hc

/-! ## Per-cycle facts -/

/-- Summary of everything the two loops guarantee for each produced cycle. -/
lemma cyclesOf_spec (d : ℕ) (P : ℕ → ℕ → ℤ) (choose : Finset ℕ → ℕ)
    (hP : genPerm d P) (hchoose : validChoose choose) :
    ∀ c ∈ cyclesOf d P choose,
      c.Nodup ∧ 1 ≤ c.length ∧ (∀ x ∈ c, x < d) ∧
      c = (List.range c.length).map (fun k => (permCol d P)^[k] (c.getD 0 0)) ∧
      (permCol d P)^[c.length] (c.getD 0 0) = c.getD 0 0 := by
  intro c hc
  unfold cyclesOf at hc
  have hpart := orbitLoop_partition (permCol d P) choose hchoose d
    (Finset.range d) (by rw [Finset.card_range])
  have hDinit : ∀ y ∈ Finset.range d \ Finset.range d,
      ∃ x ∈ Finset.range d \ Finset.range d, permCol d P x = y := by
    intro y hy
    rw [Finset.sdiff_self] at hy
    exact absurd hy (Finset.not_mem_empty y)
  have hcyc := orbitLoop_cycles (permCol d P) choose hchoose d
    (fun i hi => permCol_lt hP hi) (permCol_injOn hP) d (Finset.range d)
    (by rw [Finset.card_range]) (Finset.Subset.refl _) hDinit c hc
  obtain ⟨hne, hnd⟩ := hpart.1 c hc
  refine ⟨hnd, ?_, ?_, hcyc.1, hcyc.2⟩
  · cases c with
    | nil => exact absurd rfl hne
    | cons a t => simp
  · intro x hx
    exact Finset.mem_range.1 ((hpart.2.2.1 x).1 ⟨c, hc, hx⟩)

lemma cycle_mem_iff {f : ℕ → ℕ} {c : List ℕ}
    (hshape : c = (List.range c.length).map (fun k => f^[k] (c.getD 0 0))) :
    ∀ x, x ∈ c ↔ ∃ k, k < c.length ∧ f^[k] (c.getD 0 0) = x := by
  intro x
  constructor
  · intro hx
    rw [hshape] at hx
    obtain ⟨k, hk, hkx⟩ := List.mem_map.1 hx
    exact ⟨k, List.mem_range.1 hk, hkx⟩
  · rintro ⟨k, hk, hkx⟩
    rw [hshape]
    exact List.mem_map.2 ⟨k, List.mem_range.2 hk, hkx⟩

lemma cycle_getD_iter {f : ℕ → ℕ} {c : List ℕ}
    (hshape : c = (List.range c.length).map (fun k => f^[k] (c.getD 0 0)))
    {k : ℕ} (hk : k < c.length) :
    c.getD k 0 = f^[k] (c.getD 0 0) := by
  conv_lhs => rw [hshape]
  rw [List.getD_eq_getElem _ _ (by simpa using hk)]
  simp

lemma cycle_closed {f : ℕ → ℕ} {c : List ℕ}
    (hshape : c = (List.range c.length).map (fun k => f^[k] (c.getD 0 0)))
    (hwrap : f^[c.length] (c.getD 0 0) = c.getD 0 0) :
    ∀ x ∈ c, f x ∈ c := by
  intro x hx
  rw [cycle_mem_iff hshape] at hx ⊢
  obtain ⟨k, hk, hkx⟩ := hx
  by_cases hk1 : k + 1 < c.length
  · exact ⟨k + 1, hk1, by rw [Function.iterate_succ_apply', hkx]⟩
  · have hke : k = c.length - 1 := by omega
    have hfx : f x = c.getD 0 0 := by
      rw [← hkx, hke, ← Function.iterate_succ_apply' f,
        show (c.length - 1).succ = c.length by omega, hwrap]
    exact ⟨0, by omega, hfx.symm⟩

lemma cycle_pre {f : ℕ → ℕ} {c : List ℕ}
    (hshape : c = (List.range c.length).map (fun k => f^[k] (c.getD 0 0)))
    (hwrap : f^[c.length] (c.getD 0 0) = c.getD 0 0) :
    ∀ x ∈ c, ∃ y ∈ c, f y = x := by
  intro x hx
  rw [cycle_mem_iff hshape] at hx
  obtain ⟨k, hk, hkx⟩ := hx
  cases k with
  | zero =>
    refine ⟨f^[c.length - 1] (c.getD 0 0), ?_, ?_⟩
    · exact (cycle_mem_iff hshape _).2 ⟨c.length - 1, by omega, rfl⟩
    · rw [← Function.iterate_succ_apply' f,
        show (c.length - 1).succ = c.length by omega, hwrap]
      exact hkx
  | succ k' =>
    refine ⟨f^[k'] (c.getD 0 0), ?_, ?_⟩
    · exact (cycle_mem_iff hshape _).2 ⟨k', by omega, rfl⟩
    · rw [← Function.iterate_succ_apply' f]
      exact hkx

lemma cycle_not_mem {d : ℕ} {f : ℕ → ℕ} {c : List ℕ}
    (hinj : ∀ i₁ < d, ∀ i₂ < d, f i₁ = f i₂ → i₁ = i₂)
    (hlt : ∀ x ∈ c, x < d)
    (hshape : c = (List.range c.length).map (fun k => f^[k] (c.getD 0 0)))
    (hwrap : f^[c.length] (c.getD 0 0) = c.getD 0 0) :
    ∀ i < d, i ∉ c → f i ∉ c := by
  intro i hid hic hfc
  obtain ⟨y, hy, hyf⟩ := cycle_pre hshape hwrap (f i) hfc
  have : y = i := hinj y (hlt y hy) i hid hyf
  rw [this] at hy
  exact hic hy

lemma cycle_getD_mem {c : List ℕ} {j : ℕ} (hj : j < c.length) :
    c.getD j 0 ∈ c := by
  rw [List.getD_eq_getElem _ _ hj]
  exact List.getElem_mem hj

lemma cycle_indexOf_getD {c : List ℕ} (hnd : c.Nodup) {j : ℕ}
    (hj : j < c.length) : c.indexOf (c.getD j 0) = j := by
  rw [List.getD_eq_getElem _ _ hj]
  exact List.indexOf_getElem hnd j hj

lemma cycleSigns_length (d : ℕ) (P : ℕ → ℕ → ℤ) (c : List ℕ) :
    (cycleSigns d P c).length = c.length :=
  List.length_map _ _

lemma cycleSigns_getD (d : ℕ) (P : ℕ → ℕ → ℤ) (c : List ℕ) {k : ℕ}
    (hk : k < c.length) :
    (cycleSigns d P c).getD k 1 = rowSign d P (c.getD k 0) := by
  unfold cycleSigns
  rw [List.getD_eq_getElem _ _ (by simpa using hk), List.getD_eq_getElem _ _ hk]
  simp

lemma cycleCol_getD (d : ℕ) (P : ℕ → ℕ → ℤ) {c : List ℕ} (hnd : c.Nodup)
    {j : ℕ} (hj : j < c.length) :
    cycleCol d P c (c.getD j 0) =
      (((cycleSigns d P c).drop j).dropLast).prod := by
  unfold cycleCol
  rw [if_pos (cycle_getD_mem hj), cycle_indexOf_getD hnd hj]

lemma cycleCol_not_mem (d : ℕ) (P : ℕ → ℕ → ℤ) (c : List ℕ) {x : ℕ}
    (hx : x ∉ c) : cycleCol d P c x = 0 := by
  unfold cycleCol
  rw [if_neg hx]

lemma colS_step (d : ℕ) (P : ℕ → ℕ → ℤ) (c : List ℕ) {j : ℕ}
    (hj : j + 1 < c.length) :
    (((cycleSigns d P c).drop j).dropLast).prod =
      (cycleSigns d P c).getD j 1 *
        (((cycleSigns d P c).drop (j + 1)).dropLast).prod := by
  have hjs : j < (cycleSigns d P c).length := by
    rw [cycleSigns_length]; omega
  rw [List.drop_eq_getElem_cons hjs]
  rw [List.dropLast_cons_of_ne_nil]
  · rw [List.prod_cons, List.getD_eq_getElem _ _ hjs]
  · intro hnil
    have := congrArg List.length hnil
    rw [List.length_drop, cycleSigns_length] at this
    simp at this
    omega

lemma colS_last (d : ℕ) (P : ℕ → ℕ → ℤ) (c : List ℕ) (hL : 1 ≤ c.length) :
    (((cycleSigns d P c).drop (c.length - 1)).dropLast).prod = 1 := by
  have h1 : c.length - 1 < (cycleSigns d P c).length := by
    rw [cycleSigns_length]; omega
  rw [List.drop_eq_getElem_cons h1]
  have h2 : (cycleSigns d P c).drop (c.length - 1 + 1) = [] := by
    apply List.drop_eq_nil_of_le
    rw [cycleSigns_length]
    omega
  rw [h2]
  simp

lemma colS_total (d : ℕ) (P : ℕ → ℕ → ℤ) (c : List ℕ) (hL : 1 ≤ c.length) :
    (((cycleSigns d P c).drop 0).dropLast).prod *
      (cycleSigns d P c).getD (c.length - 1) 1 = (cycleSigns d P c).prod := by
  have hlen := cycleSigns_length d P c
  have h1 : c.length - 1 < (cycleSigns d P c).length := by omega
  have h2 : (cycleSigns d P c).drop (c.length - 1 + 1) = [] :=
    List.drop_eq_nil_of_le (by omega)
  conv_rhs => rw [← List.take_append_drop (c.length - 1) (cycleSigns d P c)]
  rw [List.prod_append, List.drop_eq_getElem_cons h1, h2, List.prod_cons,
    List.prod_nil, mul_one, List.drop_zero, List.dropLast_eq_take, hlen,
    List.getD_eq_getElem _ _ h1]

lemma colS_degenerate (d : ℕ) (P : ℕ → ℕ → ℤ) (c : List ℕ) {j : ℕ}
    (hj : c.length - 1 ≤ j) :
    (((cycleSigns d P c).drop j).dropLast).prod = 1 := by
  by_cases hL : c.length = 0
  · have : cycleSigns d P c = [] := by
      apply List.eq_nil_of_length_eq_zero
      rw [cycleSigns_length, hL]
    rw [this]
    simp
  · by_cases hjL : j < c.length
    · have hj1 : j = c.length - 1 := by omega
      rw [hj1]
      exact colS_last d P c (by omega)
    · have : (cycleSigns d P c).drop j = [] := by
        apply List.drop_eq_nil_of_le
        rw [cycleSigns_length]
        omega
      rw [this]
      simp

lemma colS_Ico (d : ℕ) (P : ℕ → ℕ → ℤ) (c : List ℕ) :
    ∀ k j, c.length - 1 - j ≤ k →
      (((cycleSigns d P c).drop j).dropLast).prod =
        ∏ t ∈ Finset.Ico j (c.length - 1), (cycleSigns d P c).getD t 1 := by
  intro k
  induction k with
  | zero =>
    intro j hj
    rw [Finset.Ico_eq_empty (by omega), Finset.prod_empty]
    exact colS_degenerate d P c (by omega)
  | succ k ihk =>
    intro j hj
    by_cases hcase : j < c.length - 1
    · rw [colS_step d P c (by omega), ihk (j + 1) (by omega),
        Finset.prod_eq_prod_Ico_succ_bot hcase]
    · rw [Finset.Ico_eq_empty (by omega), Finset.prod_empty]
      exact colS_degenerate d P c (by omega)

/-! ## Fixed-point and counting facts for the basis -/

lemma matVec_eq (d : ℕ) (P : ℕ → ℕ → ℤ) (hP : genPerm d P) (q : ℕ → ℤ)
    {i : ℕ} (hi : i < d) :
    matVec d P q i = rowSign d P i * q (permCol d P i) := by
  unfold matVec
  rw [Finset.sum_eq_single (permCol d P i)]
  · rw [rowSign_eq hP hi]
  · intro b hb hbne
    rw [permCol_zero hP hi b (Finset.mem_range.1 hb) hbne, zero_mul]
  · intro hnm
    exact absurd (Finset.mem_range.2 (permCol_lt hP hi)) hnm

lemma cycleCol_fixed (d : ℕ) (P : ℕ → ℕ → ℤ) (choose : Finset ℕ → ℕ)
    (hP : genPerm d P) (hchoose : validChoose choose) :
    ∀ c ∈ cyclesOf d P choose, (cycleSigns d P c).prod = 1 →
      ∀ i, i < d → matVec d P (cycleCol d P c) i = cycleCol d P c i := by
  intro c hc hprod i hi
  obtain ⟨hnd, hL, hlt, hshape, hwrap⟩ :=
    cyclesOf_spec d P choose hP hchoose c hc
  rw [matVec_eq d P hP _ hi]
  by_cases hmem : i ∈ c
  · obtain ⟨k, hk, hkx⟩ := (cycle_mem_iff hshape i).1 hmem
    have hiD : i = c.getD k 0 := by rw [cycle_getD_iter hshape hk, hkx]
    by_cases hk1 : k + 1 < c.length
    · have hfi : permCol d P i = c.getD (k + 1) 0 := by
        rw [cycle_getD_iter hshape hk1, ← hkx,
          ← Function.iterate_succ_apply' (permCol d P)]
      rw [hfi]
      conv_rhs => rw [hiD]
      rw [cycleCol_getD d P hnd hk1, cycleCol_getD d P hnd hk,
        colS_step d P c hk1]
      congr 1
      rw [cycleSigns_getD d P c hk, ← hiD]
    · have hke : k = c.length - 1 := by omega
      have hfi : permCol d P i = c.getD 0 0 := by
        rw [← hkx, hke, ← Function.iterate_succ_apply' (permCol d P),
          show (c.length - 1).succ = c.length by omega, hwrap]
      rw [hfi]
      conv_rhs => rw [hiD]
      rw [cycleCol_getD d P hnd (show (0:ℕ) < c.length by omega),
        cycleCol_getD d P hnd hk, hke, colS_last d P c hL]
      have htot := colS_total d P c hL
      rw [hprod] at htot
      have hsgn : (cycleSigns d P c).getD (c.length - 1) 1 = rowSign d P i := by
        rw [cycleSigns_getD d P c (show c.length - 1 < c.length by omega),
          ← hke, ← hiD]
      rw [← hsgn, mul_comm]
      exact htot
  · have hfi : permCol d P i ∉ c :=
      cycle_not_mem (permCol_injOn hP) hlt hshape hwrap i hi hmem
    rw [cycleCol_not_mem d P c hmem, cycleCol_not_mem d P c hfi, mul_zero]

lemma orbitOf_eq_toFinset {d : ℕ} {f : ℕ → ℕ} {c : List ℕ}
    (hnd : c.Nodup) (hlt : ∀ x ∈ c, x < d)
    (hshape : c = (List.range c.length).map (fun k => f^[k] (c.getD 0 0)))
    (hwrap : f^[c.length] (c.getD 0 0) = c.getD 0 0)
    (hL : 1 ≤ c.length) :
    ∀ x ∈ c, orbitOf d f x = c.toFinset := by
  intro x hx
  have hLd : c.length ≤ d := by
    have h1 : c.toFinset ⊆ Finset.range d := by
      intro y hy
      exact Finset.mem_range.2 (hlt y (List.mem_toFinset.1 hy))
    have h2 := Finset.card_le_card h1
    rw [Finset.card_range, List.toFinset_card_of_nodup hnd] at h2
    exact h2
  obtain ⟨j, hj, hjx⟩ := (cycle_mem_iff hshape x).1 hx
  apply Finset.ext
  intro y
  simp only [orbitOf, Finset.mem_image, Finset.mem_range, List.mem_toFinset]
  constructor
  · rintro ⟨k, hk, hky⟩
    have hy : y = f^[(k + j) % c.length] (c.getD 0 0) := by
      rw [← hky, ← hjx, ← Function.iterate_add_apply, iterate_period hwrap]
    rw [hy]
    exact (cycle_mem_iff hshape _).2 ⟨_, Nat.mod_lt _ (by omega), rfl⟩
  · intro hy
    obtain ⟨i2, hi2, hi2y⟩ := (cycle_mem_iff hshape y).1 hy
    refine ⟨(c.length + i2 - j) % c.length,
      lt_of_lt_of_le (Nat.mod_lt _ (by omega)) hLd, ?_⟩
    rw [← hjx, ← Function.iterate_add_apply, iterate_period hwrap]
    have harith : ((c.length + i2 - j) % c.length + j) % c.length = i2 := by
      rw [Nat.mod_add_mod, show c.length + i2 - j + j = c.length + i2 by omega,
        Nat.add_mod_left]
      exact Nat.mod_eq_of_lt hi2
    rw [harith, hi2y]

lemma permOrbits_eq (d : ℕ) (P : ℕ → ℕ → ℤ) (choose : Finset ℕ → ℕ)
    (hP : genPerm d P) (hchoose : validChoose choose) :
    permOrbits d (permCol d P) =
      ((cyclesOf d P choose).map List.toFinset).toFinset := by
  have hpart := orbitLoop_partition (permCol d P) choose hchoose d
    (Finset.range d) (by rw [Finset.card_range])
  apply Finset.ext
  intro o
  simp only [permOrbits, Finset.mem_image, Finset.mem_range,
    List.mem_toFinset, List.mem_map]
  constructor
  · rintro ⟨x, hx, rfl⟩
    obtain ⟨c, hc, hxc⟩ := (hpart.2.2.1 x).2 (Finset.mem_range.2 hx)
    obtain ⟨hnd, hL, hlt, hshape, hwrap⟩ :=
      cyclesOf_spec d P choose hP hchoose c hc
    exact ⟨c, hc, (orbitOf_eq_toFinset hnd hlt hshape hwrap hL x hxc).symm⟩
  · rintro ⟨c, hc, rfl⟩
    obtain ⟨hnd, hL, hlt, hshape, hwrap⟩ :=
      cyclesOf_spec d P choose hP hchoose c hc
    have hhd : c.getD 0 0 ∈ c := cycle_getD_mem (by omega)
    exact ⟨c.getD 0 0, hlt _ hhd,
      orbitOf_eq_toFinset hnd hlt hshape hwrap hL _ hhd⟩

lemma cycles_toFinset_nodup (d : ℕ) (P : ℕ → ℕ → ℤ) (choose : Finset ℕ → ℕ)
    (hP : genPerm d P) (hchoose : validChoose choose) :
    ((cyclesOf d P choose).map List.toFinset).Nodup := by
  have hpart := orbitLoop_partition (permCol d P) choose hchoose d
    (Finset.range d) (by rw [Finset.card_range])
  have hpw : List.Pairwise (fun c₁ c₂ => ∀ x ∈ c₁, x ∉ c₂)
      (cyclesOf d P choose) := hpart.2.1
  have h2 : List.Pairwise (fun c₁ c₂ => c₁.toFinset ≠ c₂.toFinset)
      (cyclesOf d P choose) := by
    apply List.Pairwise.imp_of_mem ?_ hpw
    intro c₁ c₂ h₁ h₂ hdisj heq
    have hne := (hpart.1 c₁ h₁).1
    have hpos : 0 < c₁.length := List.length_pos.2 hne
    have hhd : c₁.getD 0 0 ∈ c₁ := cycle_getD_mem hpos
    have hin2 : c₁.getD 0 0 ∈ c₂ := by
      rw [← List.mem_toFinset, ← heq, List.mem_toFinset]
      exact hhd
    exact hdisj _ hhd hin2
  exact List.pairwise_map.mpr h2

lemma basis_length_eq (d : ℕ) (P : ℕ → ℕ → ℤ) (choose : Finset ℕ → ℕ)
    (hP : genPerm d P) (hchoose : validChoose choose) :
    (equivariantBasis d P choose).length = posOrbitCount d P := by
  have hnody := cycles_toFinset_nodup d P choose hP hchoose
  unfold posOrbitCount
  rw [permOrbits_eq d P choose hP hchoose]
  have h1 : ((cyclesOf d P choose).map List.toFinset).toFinset.filter
      (fun o => (∏ a ∈ o, rowSign d P a) = 1) =
      (((cyclesOf d P choose).map List.toFinset).filter
        (fun o => decide ((∏ a ∈ o, rowSign d P a) = 1))).toFinset := by
    rw [List.toFinset_filter]
    apply Finset.filter_congr
    intro o _
    simp
  rw [h1, List.toFinset_card_of_nodup (List.Nodup.filter _ hnody),
    ← List.countP_eq_length_filter, List.countP_map]
  unfold equivariantBasis
  rw [List.length_filterMap_eq_countP]
  apply List.countP_congr
  intro c hc
  obtain ⟨hnd, -, -, -, -⟩ := cyclesOf_spec d P choose hP hchoose c hc
  have hps : (∏ a ∈ c.toFinset, rowSign d P a) = (cycleSigns d P c).prod := by
    rw [List.prod_toFinset _ hnd]
    rfl
  by_cases h : (cycleSigns d P c).prod = 1
  · simp [h, Function.comp, hps]
  · simp [h, Function.comp, hps]

/-- C1: for every valid generalized permutation matrix `P` (and any pop
order), every column `q` of `get_equivariant_basis(P)` satisfies
`P · q = q`, and the number of columns equals the number of orbits of `P`'s
underlying unsigned permutation whose sign product is `+1`. -/
theorem c1_basis_fixed_and_count (d : ℕ) (P : ℕ → ℕ → ℤ)
    (choose : Finset ℕ → ℕ) (hP : genPerm d P)
    (hchoose : validChoose choose) :
    (∀ q ∈ equivariantBasis d P choose, ∀ i < d, matVec d P q i = q i) ∧
    (equivariantBasis d P choose).length = posOrbitCount d P := by
  constructor
  · intro q hq i hi
    obtain ⟨c, hc, hgc⟩ := List.mem_filterMap.1 hq
    by_cases h : (cycleSigns d P c).prod = 1
    · rw [if_pos h] at hgc
      obtain rfl := Option.some.inj hgc
      exact cycleCol_fixed d P choose hP hchoose c hc h i hi
    · rw [if_neg h] at hgc
      cases hgc
  · exact basis_length_eq d P choose hP hchoose

/-- Witness for C1 at the concrete generator `exP` (two orbits, one with
sign product `+1`). -/
theorem c1_witness :
    genPerm 3 exP ∧
    ((∀ q ∈ equivariantBasis 3 exP chooseMin, ∀ i < 3,
        matVec 3 exP q i = q i) ∧
    (equivariantBasis 3 exP chooseMin).length = posOrbitCount 3 exP) :=
  ⟨by decide, c1_basis_fixed_and_count 3 exP chooseMin (by decide)
    chooseMin_valid⟩

/-- C3: on every orbit with total sign product `+1`, the contributed basis
column carries at the orbit's `j`-th visited position the product of the
signs from `j` through the second-to-last position (`1` at the last), and
it solves the fixed-point recurrence `x_{i+1} = s_i · x_i` around the
cycle. -/
theorem c3_column_values (d : ℕ) (P : ℕ → ℕ → ℤ) (choose : Finset ℕ → ℕ)
    (hP : genPerm d P) (hchoose : validChoose choose) :
    ∀ c ∈ cyclesOf d P choose, (cycleSigns d P c).prod = 1 →
      (∀ j < c.length,
        cycleCol d P c (c.getD j 0) =
          ∏ t ∈ Finset.Ico j (c.length - 1), (cycleSigns d P c).getD t 1) ∧
      cycleCol d P c (c.getD (c.length - 1) 0) = 1 ∧
      (∀ j < c.length,
        cycleCol d P c (c.getD ((j + 1) % c.length) 0) =
          (cycleSigns d P c).getD j 1 * cycleCol d P c (c.getD j 0)) := by
  intro c hc hprod
  obtain ⟨hnd, hL, hlt, hshape, hwrap⟩ :=
    cyclesOf_spec d P choose hP hchoose c hc
  have hsq : ∀ j, j < c.length →
      (cycleSigns d P c).getD j 1 * (cycleSigns d P c).getD j 1 = 1 := by
    intro j hj
    rw [cycleSigns_getD d P c hj]
    exact rowSign_mul_self hP (hlt _ (cycle_getD_mem hj))
  refine ⟨?_, ?_, ?_⟩
  · intro j hj
    rw [cycleCol_getD d P hnd hj]
    exact colS_Ico d P c c.length j (by omega)
  · rw [cycleCol_getD d P hnd (show c.length - 1 < c.length by omega)]
    exact colS_last d P c hL
  · intro j hj
    by_cases hj1 : j + 1 < c.length
    · rw [Nat.mod_eq_of_lt hj1, cycleCol_getD d P hnd hj1,
        cycleCol_getD d P hnd hj, colS_step d P c hj1, ← mul_assoc,
        hsq j hj, one_mul]
    · have hje : j = c.length - 1 := by omega
      have hmod : (j + 1) % c.length = 0 := by
        rw [show j + 1 = c.length by omega, Nat.mod_self]
      rw [hmod, cycleCol_getD d P hnd (show (0:ℕ) < c.length by omega),
        cycleCol_getD d P hnd hj, hje, colS_last d P c hL, mul_one]
      have htot := colS_total d P c hL
      rw [hprod] at htot
      calc (((cycleSigns d P c).drop 0).dropLast).prod
          = (((cycleSigns d P c).drop 0).dropLast).prod * 1 := (mul_one _).symm
        _ = (((cycleSigns d P c).drop 0).dropLast).prod *
            ((cycleSigns d P c).getD (c.length - 1) 1 *
              (cycleSigns d P c).getD (c.length - 1) 1) := by
            rw [hsq (c.length - 1) (by omega)]
        _ = ((((cycleSigns d P c).drop 0).dropLast).prod *
            (cycleSigns d P c).getD (c.length - 1) 1) *
              (cycleSigns d P c).getD (c.length - 1) 1 := by ring
        _ = 1 * (cycleSigns d P c).getD (c.length - 1) 1 := by rw [htot]
        _ = (cycleSigns d P c).getD (c.length - 1) 1 := one_mul _

/-- Witness for C3 at the concrete generator `exP`. -/
theorem c3_witness :
    genPerm 3 exP ∧
    (∀ c ∈ cyclesOf 3 exP chooseMin, (cycleSigns 3 exP c).prod = 1 →
      (∀ j < c.length,
        cycleCol 3 exP c (c.getD j 0) =
          ∏ t ∈ Finset.Ico j (c.length - 1), (cycleSigns 3 exP c).getD t 1) ∧
      cycleCol 3 exP c (c.getD (c.length - 1) 0) = 1 ∧
      (∀ j < c.length,
        cycleCol 3 exP c (c.getD ((j + 1) % c.length) 0) =
          (cycleSigns 3 exP c).getD j 1 * cycleCol 3 exP c (c.getD j 0))) :=
  ⟨by decide, c3_column_values 3 exP chooseMin (by decide) chooseMin_valid⟩

lemma prod_pm (l : List ℤ) (h : ∀ y ∈ l, y = 1 ∨ y = -1) :
    l.prod = 1 ∨ l.prod = -1 := by
  induction l with
  | nil => exact Or.inl (List.prod_nil)
  | cons a t ih =>
    rw [List.prod_cons]
    rcases h a (List.mem_cons_self a t) with ha | ha <;>
      rcases ih (fun y hy => h y (List.mem_cons_of_mem a hy)) with ht | ht <;>
        rw [ha, ht] <;> norm_num

/-- C10: every entry of the returned basis lies in `{−1, 0, +1}`; each
contributed column vanishes outside its orbit and its entry at the orbit's
last-visited index is exactly `1`. -/
theorem c10_entries (d : ℕ) (P : ℕ → ℕ → ℤ) (choose : Finset ℕ → ℕ)
    (hP : genPerm d P) (hchoose : validChoose choose) :
    (∀ q ∈ equivariantBasis d P choose, ∀ x,
      q x = -1 ∨ q x = 0 ∨ q x = 1) ∧
    (∀ c ∈ cyclesOf d P choose, (cycleSigns d P c).prod = 1 →
      (∀ x, x ∉ c → cycleCol d P c x = 0) ∧
      cycleCol d P c (c.getD (c.length - 1) 0) = 1) := by
  constructor
  · intro q hq x
    obtain ⟨c, hc, hgc⟩ := List.mem_filterMap.1 hq
    by_cases h : (cycleSigns d P c).prod = 1
    · rw [if_pos h] at hgc
      obtain rfl := Option.some.inj hgc
      obtain ⟨hnd, hL, hlt, hshape, hwrap⟩ :=
        cyclesOf_spec d P choose hP hchoose c hc
      by_cases hmem : x ∈ c
      · unfold cycleCol
        rw [if_pos hmem]
        have hval : ∀ y ∈ (((cycleSigns d P c).drop (c.indexOf x)).dropLast),
            y = 1 ∨ y = -1 := by
          intro y hy
          have hsub : (((cycleSigns d P c).drop (c.indexOf x)).dropLast).Sublist
              (cycleSigns d P c) :=
            ((List.dropLast_sublist _).trans (List.drop_sublist _ _))
          have hys : y ∈ cycleSigns d P c := hsub.mem hy
          obtain ⟨x0, hx0, hx0y⟩ := List.mem_map.1 hys
          rw [← hx0y]
          exact rowSign_pm hP (hlt x0 hx0)
        rcases prod_pm _ hval with h1 | h1
        · exact Or.inr (Or.inr h1)
        · exact Or.inl h1
      · rw [cycleCol_not_mem d P c hmem]
        exact Or.inr (Or.inl rfl)
    · rw [if_neg h] at hgc
      cases hgc
  · intro c hc hprod
    obtain ⟨hnd, hL, hlt, hshape, hwrap⟩ :=
      cyclesOf_spec d P choose hP hchoose c hc
    refine ⟨fun x hx => cycleCol_not_mem d P c hx, ?_⟩
    rw [cycleCol_getD d P hnd (show c.length - 1 < c.length by omega)]
    exact colS_last d P c hL

/-- Witness for C10 at the concrete generator `exP`. -/
theorem c10_witness :
    genPerm 3 exP ∧
    ((∀ q ∈ equivariantBasis 3 exP chooseMin, ∀ x,
      q x = -1 ∨ q x = 0 ∨ q x = 1) ∧
    (∀ c ∈ cyclesOf 3 exP chooseMin, (cycleSigns 3 exP c).prod = 1 →
      (∀ x, x ∉ c → cycleCol 3 exP c x = 0) ∧
      cycleCol 3 exP c (c.getD (c.length - 1) 0) = 1)) :=
  ⟨by decide, c10_entries 3 exP chooseMin (by decide) chooseMin_valid⟩

/-! ## `C2.canonical_group`

The construction starts from the reversal `p = np.flip(np.arange(d))`, and
(for `n = id // 2 > 0`) overwrites `p[:n] = np.flip(p_copy[-n:])` and
`p[-n:] = np.flip(p_copy[:n])`, leaving the middle slice unchanged. -/

/-- The permutation list of `C2.canonical_group` after the two slice
assignments (with `p0 = np.flip(np.arange(d))` inlined). -/
def c2swap (d nn : ℕ) : List ℕ :=
  (((List.range d).reverse.drop (d - nn)).reverse) ++
    (((List.range d).reverse.drop nn).take (d - 2 * nn)) ++
    (((List.range d).reverse.take nn).reverse)

/-- Closed form of the canonical `C2` permutation: the first and last `nn`
indices are fixed, the middle block is reversed. -/
def pFun (d nn : ℕ) : ℕ → ℕ :=
  fun i => if i < nn ∨ d - nn ≤ i then i else d - 1 - i

/-- Closed form of the canonical `C2` sign vector: `-1` at the middle index
`d / 2` when the odd-`d`/even-`id` branch fired, `+1` elsewhere. -/
def sFun (d : ℕ) (negMiddle : Bool) : ℕ → ℤ :=
  fun i => if negMiddle = true ∧ i = d / 2 then -1 else 1

/-- The tail of `C2.canonical_group` after the parity adjustment: build `p`
and `r`, call `oneline2matrix`, run the `Sym`/`C2` constructor checks, and
assert the resulting invariant-dimension count equals `inv_dims`. -/
def c2finish (d : ℕ) (invd idv : ℤ) (negMiddle : Bool) :
    Except String (ℕ → ℕ → ℤ) :=
  let n : ℤ := idv / 2
  let p : List ℕ := if 0 < n then c2swap d n.toNat else (List.range d).reverse
  let r : List ℤ :=
    if negMiddle then (List.replicate d (1 : ℤ)).set (d / 2) (-1)
    else List.replicate d 1
  match oneline2matrix (p.map Int.ofNat) (some r) with
  | .error e => .error e
  | .ok H =>
    if ¬ symOrthonormal d H then .error "AssertOrthogonal"
    else if c2IsEye d H then .error "IdentityGeneratorError"
    else if ¬ c2IsCyclic d H then .error "NotInvolutiveError"
    else if ¬ ((nInvDimsTiled d [H] : ℤ) = invd) then .error "AssertInvDims"
    else .ok H

/-- `C2.canonical_group(d, inv_dims)`.  Python's `%` and `//` on ints agree
with `ℤ`'s `%` (`Int.emod`) and `/` (`Int.ediv`) for the positive divisor
`2`. -/
def canonicalC2 (d : ℕ) (inv_dims : ℤ) : Except String (ℕ → ℕ → ℤ) :=
  if ¬ 0 < d then .error "AssertPositiveDim"
  else if ¬ inv_dims < (d : ℤ) - 1 then .error "AssertSymmetricDim"
  else if d % 2 > 0 then
    if inv_dims % 2 = 0 then c2finish d inv_dims inv_dims true
    else c2finish d inv_dims (inv_dims - 1) false
  else
    if inv_dims % 2 > 0 then
      c2finish d (inv_dims + 1) (inv_dims + 1) false
    else c2finish d inv_dims inv_dims false

lemma c2swap_zero (d : ℕ) : c2swap d 0 = (List.range d).reverse := by
  unfold c2swap
  have h1 : (List.range d).reverse.drop (d - 0) = [] :=
    List.drop_eq_nil_of_le (by simp)
  have h2 : ((List.range d).reverse.drop 0).take (d - 2 * 0) =
      (List.range d).reverse := by
    rw [List.drop_zero]
    apply List.take_of_length_le
    simp
  rw [h1, h2]
  simp

lemma c2swap_length (d nn : ℕ) (h2 : 2 * nn ≤ d) :
    (c2swap d nn).length = d := by
  unfold c2swap
  simp
  omega

lemma c2swap_getD (d nn : ℕ) (h2 : 2 * nn ≤ d) {i : ℕ} (hi : i < d) :
    (c2swap d nn).getD i 0 = pFun d nn i := by
  have hlenA : (((List.range d).reverse.drop (d - nn)).reverse).length = nn := by
    simp
    omega
  have hlenB : ((((List.range d).reverse).drop nn).take (d - 2 * nn)).length
      = d - 2 * nn := by
    simp
    omega
  have hlenC : ((((List.range d).reverse).take nn).reverse).length = nn := by
    simp
    omega
  unfold c2swap
  by_cases h1 : i < nn
  · rw [List.getD_append _ _ _ _ (by rw [List.length_append, hlenA, hlenB]; omega),
      List.getD_append _ _ _ _ (by rw [hlenA]; omega),
      List.getD_eq_getElem _ _ (by rw [hlenA]; omega)]
    simp only [List.getElem_reverse, List.getElem_drop, List.getElem_take,
      List.getElem_range, List.length_reverse, List.length_drop,
      List.length_take, List.length_range]
    unfold pFun
    rw [if_pos (Or.inl h1)]
    omega
  · by_cases hcase : i < d - nn
    · rw [List.getD_append _ _ _ _
        (by rw [List.length_append, hlenA, hlenB]; omega),
        List.getD_append_right _ _ _ _ (by rw [hlenA]; omega),
        List.getD_eq_getElem _ _ (by rw [hlenA, hlenB]; omega)]
      simp only [List.getElem_reverse, List.getElem_drop, List.getElem_take,
        List.getElem_range, List.length_reverse, List.length_drop,
        List.length_take, List.length_range]
      unfold pFun
      rw [if_neg (by omega)]
      omega
    · rw [List.getD_append_right _ _ _ _
        (by rw [List.length_append, hlenA, hlenB]; omega),
        List.getD_eq_getElem _ _
          (by rw [hlenC, List.length_append, hlenA, hlenB]; omega)]
      simp only [List.getElem_reverse, List.getElem_drop, List.getElem_take,
        List.getElem_range, List.length_reverse, List.length_drop,
        List.length_take, List.length_range, List.length_append]
      unfold pFun
      rw [if_pos (Or.inr (by omega))]
      omega

lemma pFun_lt (d nn : ℕ) (hd : 0 < d) {i : ℕ} (hi : i < d) :
    pFun d nn i < d := by
  unfold pFun
  by_cases h : i < nn ∨ d - nn ≤ i
  · rw [if_pos h]; exact hi
  · rw [if_neg h]; omega

lemma pFun_invol (d nn : ℕ) (h2 : 2 * nn ≤ d) {i : ℕ} (hi : i < d) :
    pFun d nn (pFun d nn i) = i := by
  unfold pFun
  by_cases h : i < nn ∨ d - nn ≤ i
  · rw [if_pos h, if_pos h]
  · rw [if_neg h, if_neg (by omega)]
    omega

lemma pFun_fixed_iff (d nn : ℕ) (h2 : 2 * nn + 2 ≤ d) {i : ℕ} (hi : i < d) :
    (pFun d nn i = i ↔ (i < nn ∨ d - nn ≤ i ∨ 2 * i = d - 1)) := by
  unfold pFun
  by_cases h : i < nn ∨ d - nn ≤ i
  · rw [if_pos h]
    constructor
    · intro _
      rcases h with h | h
      · exact Or.inl h
      · exact Or.inr (Or.inl h)
    · intro _; rfl
  · rw [if_neg h]
    constructor
    · intro heq
      exact Or.inr (Or.inr (by omega))
    · intro hcase
      rcases hcase with hc | hc | hc <;> omega

lemma toInt8_one : toInt8 1 = 1 := by decide

lemma toInt8_neg_one : toInt8 (-1) = -1 := by decide

lemma permMatrix_mul (d : ℕ) (p q : ℕ → ℕ) (s t : ℕ → ℤ)
    (hp : ∀ i < d, p i < d) :
    matMul d (permMatrix d p s) (permMatrix d q t) =
      permMatrix d (fun i => q (p i)) (fun i => s i * t (p i)) := by
  funext i j
  unfold matMul permMatrix
  by_cases hi : i < d
  · rw [Finset.sum_eq_single (p i)]
    · rw [if_pos ⟨hi, hp i hi, rfl⟩]
      by_cases hc : j < d ∧ q (p i) = j
      · rw [if_pos ⟨hp i hi, hc.1, hc.2⟩, if_pos ⟨hi, hc.1, hc.2⟩]
      · rw [if_neg (fun h => hc ⟨h.2.1, h.2.2⟩),
          if_neg (fun h => hc ⟨h.2.1, h.2.2⟩), mul_zero]
    · intro b hb hbne
      rw [if_neg (fun h => hbne h.2.2.symm), zero_mul]
    · intro hnm
      exact absurd (Finset.mem_range.2 (hp i hi)) hnm
  · rw [Finset.sum_eq_zero, if_neg (fun h => hi h.1)]
    intro b hb
    rw [if_neg (fun h => hi h.1), zero_mul]

lemma permMatrix_orthonormal (d : ℕ) (p : ℕ → ℕ) (s : ℕ → ℤ)
    (hp : ∀ i < d, p i < d) (hinvol : ∀ i < d, p (p i) = i)
    (hs : ∀ i < d, s i = 1 ∨ s i = -1) :
    symOrthonormal d (permMatrix d p s) := by
  intro j hj
  rw [Finset.sum_eq_single (p j)]
  · unfold permMatrix
    rw [if_pos ⟨hp j hj, hj, hinvol j hj⟩]
    rcases hs (p j) (hp j hj) with h | h <;> rw [h] <;> norm_num
  · intro b hb hbne
    have hz : permMatrix d p s b j = 0 := by
      unfold permMatrix
      rw [if_neg]
      rintro ⟨hbd, -, hpb⟩
      apply hbne
      rw [← hinvol b hbd, hpb]
    rw [hz]
    norm_num
  · intro hnm
    exact absurd (Finset.mem_range.2 (hp j hj)) hnm

lemma c2swap_eq_map (d nn : ℕ) (h2 : 2 * nn ≤ d) :
    c2swap d nn = (List.range d).map (pFun d nn) := by
  apply List.ext_getElem
  · rw [c2swap_length d nn h2]
    simp
  · intro i h1 hmap
    have hid : i < d := by
      rw [c2swap_length d nn h2] at h1
      exact h1
    rw [← List.getD_eq_getElem _ 0 h1, c2swap_getD d nn h2 hid]
    simp

lemma oneline2matrix_c2swap (d nn : ℕ) (r : List ℤ) (h2 : 2 * nn + 2 ≤ d)
    (hrlen : r.length = d) (hrne : r.isEmpty = false) :
    oneline2matrix ((c2swap d nn).map Int.ofNat) (some r) =
      .ok (fun i j => if i < d ∧ j < d ∧ pFun d nn i = j
        then toInt8 (r.getD i 0) else 0) := by
  have hd0 : 0 < d := by omega
  have hlen : ((c2swap d nn).map Int.ofNat).length = d := by
    rw [List.length_map, c2swap_length d nn (by omega)]
  have hinj : ∀ x ∈ List.range d, ∀ y ∈ List.range d,
      pFun d nn x = pFun d nn y → x = y := by
    intro x hx y hy hxy
    rw [List.mem_range] at hx hy
    rw [← pFun_invol d nn (by omega) hx, hxy, pFun_invol d nn (by omega) hy]
  have hnodup : ((c2swap d nn).map Int.ofNat).Nodup := by
    rw [c2swap_eq_map d nn (by omega), List.map_map]
    apply List.Nodup.map_on
    · intro x hx y hy hxy
      apply hinj x hx y hy
      exact Int.ofNat.inj hxy
    · exact List.nodup_range d
  have hdedup : ((c2swap d nn).map Int.ofNat).dedup.length =
      ((c2swap d nn).map Int.ofNat).length := by
    rw [List.Nodup.dedup hnodup]
  have heff : effSigns ((c2swap d nn).map Int.ofNat).length (some r) = r := by
    show (if r.isEmpty = true then
      List.replicate ((c2swap d nn).map Int.ofNat).length (1 : ℤ) else r) = r
    rw [hrne]
    simp
  have hbound : ∀ x ∈ (c2swap d nn).map Int.ofNat,
      x.natAbs < ((c2swap d nn).map Int.ofNat).length := by
    intro x hx
    rw [c2swap_eq_map d nn (by omega), List.map_map] at hx
    obtain ⟨y, hy, hyx⟩ := List.mem_map.1 hx
    rw [List.mem_range] at hy
    rw [hlen, ← hyx]
    show pFun d nn y < d
    exact pFun_lt d nn hd0 hy
  have hgetD : ∀ i < d, (((c2swap d nn).map Int.ofNat).getD i 0).natAbs =
      pFun d nn i := by
    intro i hi
    rw [List.getD_eq_getElem _ _ (by rw [hlen]; exact hi)]
    rw [List.getElem_map]
    have hb : i < (c2swap d nn).length := by
      rw [c2swap_length d nn (by omega)]
      exact hi
    show (c2swap d nn)[i] = pFun d nn i
    rw [← List.getD_eq_getElem _ 0 hb, c2swap_getD d nn (by omega) hi]
  unfold oneline2matrix
  rw [if_neg (by rw [hdedup]; exact fun h => h rfl),
    if_neg (by rw [heff, hrlen, hlen]; exact fun h => h rfl),
    if_neg (not_not_intro hbound)]
  congr 1
  funext i j
  rw [heff, hlen]
  by_cases hi : i < d
  · rw [hgetD i hi]
  · have hget0 : (((c2swap d nn).map Int.ofNat).getD i 0) = 0 := by
      apply List.getD_eq_default
      rw [hlen]
      omega
    rw [if_neg (fun h => hi h.1), if_neg (fun h => hi h.1)]

lemma permMatrix_trace_lt (d nn : ℕ) (s : ℕ → ℤ) (h2 : 2 * nn + 2 ≤ d)
    (hs : ∀ i < d, s i = 1 ∨ s i = -1) :
    traceM d (permMatrix d (pFun d nn) s) < d := by
  unfold traceM
  have hub : ∀ i ∈ Finset.range d,
      permMatrix d (pFun d nn) s i i ≤ (1 : ℤ) := by
    intro i _
    unfold permMatrix
    by_cases hc : i < d ∧ i < d ∧ pFun d nn i = i
    · rw [if_pos hc]
      rcases hs i hc.1 with h | h <;> rw [h] <;> norm_num
    · rw [if_neg hc]
      norm_num
  have hstrict : ∃ i ∈ Finset.range d,
      permMatrix d (pFun d nn) s i i < (1 : ℤ) := by
    refine ⟨nn, Finset.mem_range.2 (by omega), ?_⟩
    unfold permMatrix
    rw [if_neg]
    · norm_num
    · rintro ⟨-, -, hfix⟩
      rw [pFun_fixed_iff d nn h2 (by omega)] at hfix
      omega
  have hlt := Finset.sum_lt_sum hub hstrict
  rw [Finset.sum_const, Finset.card_range, nsmul_eq_mul, mul_one] at hlt
  exact hlt

lemma sFun_pm (d : ℕ) (negMiddle : Bool) (i : ℕ) :
    sFun d negMiddle i = 1 ∨ sFun d negMiddle i = -1 := by
  unfold sFun
  by_cases h : negMiddle = true ∧ i = d / 2
  · rw [if_pos h]; exact Or.inr rfl
  · rw [if_neg h]; exact Or.inl rfl

lemma sFun_one (d : ℕ) (negMiddle : Bool) {i : ℕ}
    (h : negMiddle = true → i ≠ d / 2) : sFun d negMiddle i = 1 := by
  unfold sFun
  rw [if_neg (fun hc => (h hc.1) hc.2)]

lemma pFun_mid_fixed (d nn : ℕ) (h2 : 2 * nn + 2 ≤ d) (hodd : d % 2 = 1) :
    pFun d nn (d / 2) = d / 2 := by
  rw [pFun_fixed_iff d nn h2 (by omega)]
  right; right
  omega

lemma permMatrix_sq_trace (d nn : ℕ) (negMiddle : Bool)
    (h2 : 2 * nn + 2 ≤ d) (hmid : negMiddle = true → d % 2 = 1) :
    traceM d (matMul d (permMatrix d (pFun d nn) (sFun d negMiddle))
      (permMatrix d (pFun d nn) (sFun d negMiddle))) = d := by
  have hd0 : 0 < d := by omega
  rw [permMatrix_mul d _ _ _ _ (fun i hi => pFun_lt d nn hd0 hi)]
  unfold traceM
  have hone : ∀ i ∈ Finset.range d,
      permMatrix d (fun i => pFun d nn (pFun d nn i))
        (fun i => sFun d negMiddle i * sFun d negMiddle (pFun d nn i)) i i
      = (1 : ℤ) := by
    intro i hi
    rw [Finset.mem_range] at hi
    unfold permMatrix
    rw [if_pos ⟨hi, hi, pFun_invol d nn (by omega) hi⟩]
    show sFun d negMiddle i * sFun d negMiddle (pFun d nn i) = 1
    by_cases hneg : negMiddle = true
    · have hodd := hmid hneg
      by_cases him : i = d / 2
      · have hfix := pFun_mid_fixed d nn h2 hodd
        rw [him, hfix]
        unfold sFun
        rw [if_pos ⟨hneg, rfl⟩]
        norm_num
      · have hne2 : pFun d nn i ≠ d / 2 := by
          intro hc
          apply him
          have hiv := pFun_invol d nn (by omega) hi
          rw [hc, pFun_mid_fixed d nn h2 hodd] at hiv
          exact hiv.symm
        rw [sFun_one d negMiddle (fun _ => him),
          sFun_one d negMiddle (fun _ => hne2), mul_one]
    · rw [sFun_one d negMiddle (fun hc => absurd hc hneg),
        sFun_one d negMiddle (fun hc => absurd hc hneg), mul_one]
  rw [Finset.sum_congr rfl hone, Finset.sum_const, Finset.card_range,
    nsmul_eq_mul, mul_one]

lemma canonical_inv_count (d nn : ℕ) (negMiddle : Bool)
    (h2 : 2 * nn + 2 ≤ d) (hmid : negMiddle = true → d % 2 = 1) :
    nInvDimsTiled d [permMatrix d (pFun d nn) (sFun d negMiddle)] =
      2 * nn + (if d % 2 = 1 ∧ negMiddle = false then 1 else 0) := by
  have hnn3 : negMiddle = true → 2 * nn + 3 ≤ d := by
    intro h
    have := hmid h
    omega
  unfold nInvDimsTiled
  rw [invDimsTiled_eq_untiled]
  have hmemiff : ∀ i,
      i ∈ invDimsUntiled d [permMatrix d (pFun d nn) (sFun d negMiddle)] ↔
        (i < d ∧ pFun d nn i = i ∧ sFun d negMiddle i = 1) := by
    intro i
    unfold invDimsUntiled
    rw [Finset.mem_filter, Finset.mem_range]
    constructor
    · rintro ⟨hi, hdiag⟩
      have hd2 := hdiag (permMatrix d (pFun d nn) (sFun d negMiddle))
        (List.mem_singleton_self _)
      have hfix : pFun d nn i = i := by
        by_contra hfix
        unfold permMatrix at hd2
        rw [if_neg (fun hc => hfix hc.2.2)] at hd2
        norm_num at hd2
      refine ⟨hi, hfix, ?_⟩
      unfold permMatrix at hd2
      rw [if_pos ⟨hi, hi, hfix⟩] at hd2
      exact hd2
    · rintro ⟨hi, hfix, hsgn⟩
      refine ⟨hi, ?_⟩
      intro g hg
      rw [List.mem_singleton] at hg
      rw [hg]
      unfold permMatrix
      rw [if_pos ⟨hi, hi, hfix⟩]
      exact hsgn
  by_cases hC : d % 2 = 1 ∧ negMiddle = false
  · have hset : invDimsUntiled d
        [permMatrix d (pFun d nn) (sFun d negMiddle)] =
        (Finset.range nn ∪ Finset.Ico (d - nn) d) ∪ {(d - 1) / 2} := by
      apply Finset.ext
      intro i
      rw [hmemiff i]
      simp only [Finset.mem_union, Finset.mem_range, Finset.mem_Ico,
        Finset.mem_singleton]
      constructor
      · rintro ⟨hi, hfix, -⟩
        rw [pFun_fixed_iff d nn h2 hi] at hfix
        rcases hfix with h | h | h
        · exact Or.inl (Or.inl h)
        · exact Or.inl (Or.inr ⟨h, hi⟩)
        · exact Or.inr (by omega)
      · intro hcase
        have hsg : sFun d negMiddle i = 1 :=
          sFun_one d negMiddle (fun hm => absurd hC.2 (by rw [hm]; simp))
        rcases hcase with (h | h) | h
        · refine ⟨by omega, ?_, hsg⟩
          rw [pFun_fixed_iff d nn h2 (by omega)]
          exact Or.inl h
        · refine ⟨h.2, ?_, hsg⟩
          rw [pFun_fixed_iff d nn h2 h.2]
          exact Or.inr (Or.inl h.1)
        · have hi : i < d := by omega
          refine ⟨hi, ?_, hsg⟩
          rw [pFun_fixed_iff d nn h2 hi]
          right; right
          omega
    rw [hset, if_pos hC]
    have hdj1 : Disjoint (Finset.range nn) (Finset.Ico (d - nn) d) := by
      rw [Finset.disjoint_left]
      intro x hx hy
      rw [Finset.mem_range] at hx
      rw [Finset.mem_Ico] at hy
      omega
    have hdj2 : Disjoint (Finset.range nn ∪ Finset.Ico (d - nn) d)
        ({(d - 1) / 2} : Finset ℕ) := by
      rw [Finset.disjoint_right]
      intro x hx hy
      rw [Finset.mem_singleton] at hx
      rw [Finset.mem_union, Finset.mem_range, Finset.mem_Ico] at hy
      have hodd := hC.1
      have h3 : 2 * nn + 3 ≤ d := by omega
      omega
    rw [Finset.card_union_of_disjoint hdj2,
      Finset.card_union_of_disjoint hdj1, Finset.card_range, Nat.card_Ico,
      Finset.card_singleton]
    omega
  · have hset : invDimsUntiled d
        [permMatrix d (pFun d nn) (sFun d negMiddle)] =
        Finset.range nn ∪ Finset.Ico (d - nn) d := by
      apply Finset.ext
      intro i
      rw [hmemiff i]
      simp only [Finset.mem_union, Finset.mem_range, Finset.mem_Ico]
      constructor
      · rintro ⟨hi, hfix, hsgn⟩
        rw [pFun_fixed_iff d nn h2 hi] at hfix
        rcases hfix with h | h | h
        · exact Or.inl h
        · exact Or.inr ⟨h, hi⟩
        · exfalso
          have hodd : d % 2 = 1 := by omega
          have hneg : negMiddle = true := by
            cases hb : negMiddle
            · exact absurd ⟨hodd, hb⟩ hC
            · rfl
          unfold sFun at hsgn
          rw [if_pos ⟨hneg, by omega⟩] at hsgn
          norm_num at hsgn
      · intro hcase
        have hne : negMiddle = true → i ≠ d / 2 := by
          intro hm
          have h3 := hnn3 hm
          have hodd := hmid hm
          rcases hcase with h | h <;> omega
        have hsg : sFun d negMiddle i = 1 := sFun_one d negMiddle hne
        rcases hcase with h | h
        · refine ⟨by omega, ?_, hsg⟩
          rw [pFun_fixed_iff d nn h2 (by omega)]
          exact Or.inl h
        · refine ⟨h.2, ?_, hsg⟩
          rw [pFun_fixed_iff d nn h2 h.2]
          exact Or.inr (Or.inl h.1)
    rw [hset, if_neg hC]
    have hdj1 : Disjoint (Finset.range nn) (Finset.Ico (d - nn) d) := by
      rw [Finset.disjoint_left]
      intro x hx hy
      rw [Finset.mem_range] at hx
      rw [Finset.mem_Ico] at hy
      omega
    rw [Finset.card_union_of_disjoint hdj1, Finset.card_range, Nat.card_Ico]
    omega

lemma c2finish_ok (d nn : ℕ) (negMiddle : Bool) (invd : ℤ)
    (h2 : 2 * nn + 2 ≤ d)
    (hmid : negMiddle = true → d % 2 = 1)
    (hcnt : invd = ((2 * nn +
      (if d % 2 = 1 ∧ negMiddle = false then 1 else 0) : ℕ) : ℤ)) :
    c2finish d invd ((2 * nn : ℕ) : ℤ) negMiddle =
      .ok (permMatrix d (pFun d nn) (sFun d negMiddle)) := by
  have hd0 : 0 < d := by omega
  have hrlen : (if negMiddle then (List.replicate d (1 : ℤ)).set (d / 2) (-1)
      else List.replicate d 1).length = d := by
    cases negMiddle <;> simp
  have hrne : (if negMiddle then (List.replicate d (1 : ℤ)).set (d / 2) (-1)
      else List.replicate d 1).isEmpty = false := by
    cases hr2 : (if negMiddle then (List.replicate d (1 : ℤ)).set (d / 2) (-1)
      else List.replicate d 1) with
    | nil =>
      rw [hr2] at hrlen
      simp at hrlen
      omega
    | cons a t => rfl
  have hrget : ∀ i < d, toInt8 ((if negMiddle then
      (List.replicate d (1 : ℤ)).set (d / 2) (-1)
      else List.replicate d 1).getD i 0) = sFun d negMiddle i := by
    intro i hi
    cases negMiddle with
    | false =>
      rw [sFun_one d false (fun hc => absurd hc (by norm_num))]
      rw [if_neg (by norm_num)]
      rw [List.getD_eq_getElem _ _ (by simp; omega)]
      rw [List.getElem_replicate]
      exact toInt8_one
    | true =>
      rw [if_pos rfl]
      rw [List.getD_eq_getElem _ _ (by simp; omega)]
      rw [List.getElem_set]
      unfold sFun
      by_cases him : i = d / 2
      · rw [if_pos him.symm, if_pos ⟨rfl, him⟩]
        exact toInt8_neg_one
      · have hA : ¬ (d / 2 = i) := fun h => him h.symm
        have hB : ¬ ((true = true) ∧ i = d / 2) := fun hc => him hc.2
        rw [if_neg hA, if_neg hB, List.getElem_replicate]
        exact toInt8_one
  have hn1 : ((2 * nn : ℕ) : ℤ) / 2 = (nn : ℤ) := by omega
  have hplist : (if 0 < ((2 * nn : ℕ) : ℤ) / 2
      then c2swap d (((2 * nn : ℕ) : ℤ) / 2).toNat
      else (List.range d).reverse) = c2swap d nn := by
    rw [hn1]
    by_cases h : 0 < nn
    · rw [if_pos (by exact_mod_cast h),
        show ((nn : ℤ)).toNat = nn from by omega]
    · rw [if_neg (by omega), show nn = 0 from by omega, c2swap_zero]
  have horth : symOrthonormal d (permMatrix d (pFun d nn) (sFun d negMiddle)) :=
    permMatrix_orthonormal d _ _ (fun i hi => pFun_lt d nn hd0 hi)
      (fun i hi => pFun_invol d nn (by omega) hi)
      (fun i _ => sFun_pm d negMiddle i)
  have heye : ¬ c2IsEye d (permMatrix d (pFun d nn) (sFun d negMiddle)) := by
    unfold c2IsEye
    have := permMatrix_trace_lt d nn (sFun d negMiddle) h2
      (fun i _ => sFun_pm d negMiddle i)
    omega
  have hcyc : c2IsCyclic d (permMatrix d (pFun d nn) (sFun d negMiddle)) :=
    permMatrix_sq_trace d nn negMiddle h2 hmid
  have hcount := canonical_inv_count d nn negMiddle h2 hmid
  simp only [c2finish]
  rw [hplist, oneline2matrix_c2swap d nn _ h2 hrlen hrne]
  have hHeq : (fun i j => if i < d ∧ j < d ∧ pFun d nn i = j
      then toInt8 ((if negMiddle then
        (List.replicate d (1 : ℤ)).set (d / 2) (-1)
        else List.replicate d 1).getD i 0) else 0) =
      permMatrix d (pFun d nn) (sFun d negMiddle) := by
    funext i j
    unfold permMatrix
    by_cases hc : i < d ∧ j < d ∧ pFun d nn i = j
    · rw [if_pos hc, if_pos hc, hrget i hc.1]
    · rw [if_neg hc, if_neg hc]
  rw [hHeq]
  show (if ¬ symOrthonormal d (permMatrix d (pFun d nn) (sFun d negMiddle))
      then Except.error "AssertOrthogonal"
    else if c2IsEye d (permMatrix d (pFun d nn) (sFun d negMiddle)) then
      Except.error "IdentityGeneratorError"
    else if ¬ c2IsCyclic d (permMatrix d (pFun d nn) (sFun d negMiddle)) then
      Except.error "NotInvolutiveError"
    else if ¬ ((nInvDimsTiled d
        [permMatrix d (pFun d nn) (sFun d negMiddle)] : ℤ) = invd) then
      Except.error "AssertInvDims"
    else .ok (permMatrix d (pFun d nn) (sFun d negMiddle))) = _
  rw [if_neg (not_not_intro horth), if_neg heye, if_neg (not_not_intro hcyc),
    if_neg (not_not_intro (by rw [hcount, hcnt]))]

/-- C4 counterexample: `inv_dims = -1` satisfies the stated precondition
`inv_dims < d - 1` at `d = 3`, yet `canonical_group` raises (its
postcondition assert fails: the construction yields one invariant
dimension, not `-1`) instead of returning a group. -/
theorem c4_counterexample :
    isOkE (canonicalC2 3 (-1)) = false ∧ ((-1 : ℤ) < (3 : ℤ) - 1) := by
  constructor
  · decide
  · decide

/-- C4 (amended): for every `d > 0` and every *non-negative*
`inv_dims < d − 1`, `C2.canonical_group(d, inv_dims)` returns a group whose
`n_invariant_dimensions` equals the requested `inv_dims`, except when `d`
is even and `inv_dims` odd, in which case the request is silently rounded
up to `inv_dims + 1`. -/
theorem c4_canonical_inv_dims (d inv : ℕ) (hd : 0 < d)
    (hinv : (inv : ℤ) < (d : ℤ) - 1) :
    ∃ H, canonicalC2 d (inv : ℤ) = .ok H ∧
      nInvDimsTiled d [H] =
        (if d % 2 = 0 ∧ inv % 2 = 1 then inv + 1 else inv) := by
  have hd2 : inv + 2 ≤ d := by omega
  unfold canonicalC2
  rw [if_neg (not_not_intro hd), if_neg (not_not_intro hinv)]
  by_cases hdp : d % 2 = 1
  · rw [if_pos (show d % 2 > 0 by omega)]
    by_cases hip : inv % 2 = 0
    · rw [if_pos (show (inv : ℤ) % 2 = 0 by omega)]
      have h2 : 2 * (inv / 2) + 2 ≤ d := by omega
      refine ⟨permMatrix d (pFun d (inv / 2)) (sFun d true), ?_, ?_⟩
      · rw [show ((inv : ℤ)) = ((2 * (inv / 2) : ℕ) : ℤ) from by omega]
        exact c2finish_ok d (inv / 2) true _ h2 (fun _ => hdp)
          (by rw [if_neg (fun hc => by simp at hc)]; omega)
      · rw [canonical_inv_count d (inv / 2) true h2 (fun _ => hdp),
          if_neg (fun hc => by simp at hc), if_neg (by omega)]
        omega
    · rw [if_neg (show ¬ ((inv : ℤ) % 2 = 0) by omega)]
      have h2 : 2 * (inv / 2) + 2 ≤ d := by omega
      refine ⟨permMatrix d (pFun d (inv / 2)) (sFun d false), ?_, ?_⟩
      · rw [show ((inv : ℤ) - 1) = ((2 * (inv / 2) : ℕ) : ℤ) from by omega]
        exact c2finish_ok d (inv / 2) false _ h2 (fun h => by simp at h)
          (by rw [if_pos ⟨hdp, rfl⟩]; omega)
      · rw [canonical_inv_count d (inv / 2) false h2 (fun h => by simp at h),
          if_pos ⟨hdp, rfl⟩, if_neg (by omega)]
        omega
  · rw [if_neg (show ¬ (d % 2 > 0) by omega)]
    by_cases hip : inv % 2 = 1
    · rw [if_pos (show (inv : ℤ) % 2 > 0 by omega)]
      have h2 : 2 * ((inv + 1) / 2) + 2 ≤ d := by omega
      refine ⟨permMatrix d (pFun d ((inv + 1) / 2)) (sFun d false), ?_, ?_⟩
      · rw [show ((inv : ℤ) + 1) = ((2 * ((inv + 1) / 2) : ℕ) : ℤ) from by omega]
        exact c2finish_ok d ((inv + 1) / 2) false _ h2 (fun h => by simp at h)
          (by rw [if_neg (fun hc => absurd hc.1 (by omega))]; omega)
      · rw [canonical_inv_count d ((inv + 1) / 2) false h2
          (fun h => by simp at h),
          if_neg (fun hc => absurd hc.1 (by omega)), if_pos ⟨by omega, hip⟩]
        omega
    · rw [if_neg (show ¬ ((inv : ℤ) % 2 > 0) by omega)]
      have h2 : 2 * (inv / 2) + 2 ≤ d := by omega
      refine ⟨permMatrix d (pFun d (inv / 2)) (sFun d false), ?_, ?_⟩
      · rw [show ((inv : ℤ)) = ((2 * (inv / 2) : ℕ) : ℤ) from by omega]
        exact c2finish_ok d (inv / 2) false _ h2 (fun h => by simp at h)
          (by rw [if_neg (fun hc => absurd hc.1 (by omega))]; omega)
      · rw [canonical_inv_count d (inv / 2) false h2 (fun h => by simp at h),
          if_neg (fun hc => absurd hc.1 (by omega)), if_neg (by omega)]
        omega

/-- Witness for C4 at `d = 4`, `inv_dims = 1` (even dimension, odd request:
rounded up to `2`). -/
theorem c4_witness :
    (0 < 4 ∧ ((1 : ℕ) : ℤ) < (4 : ℤ) - 1) ∧
    ∃ H, canonicalC2 4 ((1 : ℕ) : ℤ) = .ok H ∧
      nInvDimsTiled 4 [H] =
        (if 4 % 2 = 0 ∧ 1 % 2 = 1 then 1 + 1 else 1) :=
  ⟨⟨by decide, by decide⟩, c4_canonical_inv_dims 4 1 (by decide) (by decide)⟩

/-! ## `Klein4.canonical_group` -/

/-- The reversal permutation `a = list(reversed(range(d)))`. -/
def revP (d : ℕ) : ℕ → ℕ := fun i => d - 1 - i

/-- The block permutation underlying `b = concat(idx[2], idx[3], idx[0],
idx[1])` for quarter size `m`: rotation by `2 m`. -/
def rotP (m : ℕ) : ℕ → ℕ :=
  fun i => if i < 2 * m then i + 2 * m else i - 2 * m

/-- The one-line list `np.concatenate((idx[2], idx[3], idx[0], idx[1]))`
where `idx = np.array_split(range(d), 4)` splits evenly into quarters of
size `m`. -/
def bKlein (m : ℕ) : List ℕ :=
  List.range' (2 * m) m ++ List.range' (3 * m) m ++
    List.range' 0 m ++ List.range' m m

/-- `Klein4.canonical_group(d)`: fail fast on `d % 4 ≠ 0`
(`NotImplementedError`), otherwise build the reversal and block generators
and run the `Sym`/`Klein4` constructor checks. -/
def canonicalKlein4 (d : ℕ) : Except String (List (ℕ → ℕ → ℤ)) :=
  if ¬ 0 < d then .error "AssertPositiveDim"
  else if d % 4 > 0 then .error "NotImplementedError"
  else
    match oneline2matrix (((List.range d).reverse).map Int.ofNat) none with
    | .error e => .error e
    | .ok repA =>
      match oneline2matrix ((bKlein (d / 4)).map Int.ofNat)
          (some (List.replicate d 1)) with
      | .error e => .error e
      | .ok repB =>
        if ¬ (symOrthonormal d repA ∧ symOrthonormal d repB) then
          .error "AssertOrthogonal"
        else if ¬ matEq d (matMul d repA repA) (eyeM d) then
          .error "NotInvolutiveError"
        else if ¬ matEq d (matMul d repB repB) (eyeM d) then
          .error "NotInvolutiveError"
        else if ¬ matEq d (matMul d (matMul d repA repB)
            (matMul d repA repB)) (eyeM d) then
          .error "ClosureError"
        else if matEq d (matMul d repA repB) (eyeM d) then
          .error "ClosureError"
        else .ok [repA, repB]

lemma reverse_range_getD (d : ℕ) {i : ℕ} (hi : i < d) :
    ((List.range d).reverse).getD i 0 = d - 1 - i := by
  rw [List.getD_eq_getElem _ _ (by simpa using hi), List.getElem_reverse]
  simp

lemma bKlein_getD (m : ℕ) {i : ℕ} (hi : i < 4 * m) :
    (bKlein m).getD i 0 = rotP m i := by
  have hx : (List.range' (2 * m) m).length = m := List.length_range' _ _ _
  have hy : (List.range' (3 * m) m).length = m := List.length_range' _ _ _
  have hz : (List.range' 0 m).length = m := List.length_range' _ _ _
  have hw : (List.range' m m).length = m := List.length_range' _ _ _
  unfold bKlein rotP
  by_cases h1 : i < m
  · rw [List.getD_append _ _ _ _ (by simp; omega),
      List.getD_append _ _ _ _ (by simp; omega),
      List.getD_append _ _ _ _ (by simp; omega),
      List.getD_eq_getElem _ _ (by simp; omega),
      List.getElem_range']
    rw [if_pos (by omega)]
    omega
  · by_cases h2 : i < 2 * m
    · rw [List.getD_append _ _ _ _ (by simp; omega),
        List.getD_append _ _ _ _ (by simp; omega),
        List.getD_append_right _ _ _ _ (by simp; omega),
        List.getD_eq_getElem _ _ (by simp; omega),
        List.getElem_range']
      rw [if_pos (by omega)]
      simp
      omega
    · by_cases h3 : i < 3 * m
      · rw [List.getD_append _ _ _ _ (by simp; omega),
          List.getD_append_right _ _ _ _ (by simp; omega),
          List.getD_eq_getElem _ _ (by simp; omega),
          List.getElem_range']
        rw [if_neg (by omega)]
        simp
        omega
      · rw [List.getD_append_right _ _ _ _ (by simp; omega),
          List.getD_eq_getElem _ _ (by simp; omega),
          List.getElem_range']
        rw [if_neg (by omega)]
        simp
        omega

lemma bKlein_length (m : ℕ) : (bKlein m).length = 4 * m := by
  unfold bKlein
  simp
  omega

lemma rotP_invol (m : ℕ) {i : ℕ} (hi : i < 4 * m) :
    rotP m (rotP m i) = i := by
  unfold rotP
  split_ifs <;> omega

lemma rotP_lt (m : ℕ) {i : ℕ} (hi : i < 4 * m) : rotP m i < 4 * m := by
  unfold rotP
  split_ifs <;> omega

lemma revP_invol (d : ℕ) {i : ℕ} (hi : i < d) : revP d (revP d i) = i := by
  unfold revP
  omega

lemma revP_lt (d : ℕ) {i : ℕ} (hi : i < d) : revP d i < d := by
  unfold revP
  omega

lemma bKlein_eq_map (m : ℕ) :
    bKlein m = (List.range (4 * m)).map (rotP m) := by
  apply List.ext_getElem
  · rw [bKlein_length]
    simp
  · intro i h1 h2
    have hi : i < 4 * m := by
      rw [bKlein_length] at h1
      exact h1
    rw [← List.getD_eq_getElem _ 0 h1, bKlein_getD m hi]
    simp

lemma oneline2matrix_perm (d : ℕ) (pl : List ℕ) (p : ℕ → ℕ)
    (reflexions : Option (List ℤ)) (r : List ℤ)
    (hlen : pl.length = d)
    (hget : ∀ i < d, pl.getD i 0 = p i)
    (hp : ∀ i < d, p i < d)
    (hnodup : pl.Nodup)
    (heff : effSigns d reflexions = r)
    (hrlen : r.length = d) :
    oneline2matrix (pl.map Int.ofNat) reflexions =
      .ok (fun i j => if i < d ∧ j < d ∧ p i = j
        then toInt8 (r.getD i 0) else 0) := by
  have hmlen : (pl.map Int.ofNat).length = d := by rw [List.length_map, hlen]
  have hmem_lt : ∀ y ∈ pl, y < d := by
    intro y hy
    obtain ⟨i, hilen, hival⟩ := List.getElem_of_mem hy
    have hid : i < d := by omega
    rw [← List.getD_eq_getElem _ 0 hilen, hget i hid] at hival
    rw [← hival]
    exact hp i hid
  have hmnodup : (pl.map Int.ofNat).Nodup :=
    List.Nodup.map (fun a b h => Int.ofNat.inj h) hnodup
  have hdedup : (pl.map Int.ofNat).dedup.length =
      (pl.map Int.ofNat).length := by
    rw [List.Nodup.dedup hmnodup]
  have heff2 : effSigns (pl.map Int.ofNat).length reflexions = r := by
    rw [hmlen, heff]
  have hbound : ∀ x ∈ pl.map Int.ofNat,
      x.natAbs < (pl.map Int.ofNat).length := by
    intro x hx
    obtain ⟨y, hy, hyx⟩ := List.mem_map.1 hx
    rw [hmlen, ← hyx]
    show y < d
    exact hmem_lt y hy
  have hgetD : ∀ i < d, ((pl.map Int.ofNat).getD i 0).natAbs = p i := by
    intro i hi
    rw [List.getD_eq_getElem _ _ (by rw [hmlen]; exact hi), List.getElem_map]
    have hb : i < pl.length := by omega
    show pl[i] = p i
    rw [← List.getD_eq_getElem _ 0 hb, hget i hi]
  unfold oneline2matrix
  rw [if_neg (by rw [hdedup]; exact fun h => h rfl),
    if_neg (by rw [heff2, hrlen, hmlen]; exact fun h => h rfl),
    if_neg (not_not_intro hbound)]
  congr 1
  funext i j
  rw [heff2, hmlen]
  by_cases hi : i < d
  · rw [hgetD i hi]
  · rw [if_neg (fun h => hi h.1), if_neg (fun h => hi h.1)]

lemma ok_matrix_ones (d : ℕ) (p : ℕ → ℕ) :
    (fun i j => if i < d ∧ j < d ∧ p i = j
      then toInt8 ((List.replicate d (1 : ℤ)).getD i 0) else 0) =
      permMatrix d p (fun _ => (1 : ℤ)) := by
  funext i j
  unfold permMatrix
  by_cases hc : i < d ∧ j < d ∧ p i = j
  · rw [if_pos hc, if_pos hc,
      List.getD_eq_getElem _ _ (by simp; exact hc.1), List.getElem_replicate]
    exact toInt8_one
  · rw [if_neg hc, if_neg hc]

lemma permMatrix_eq_eye (d : ℕ) (q : ℕ → ℕ) (t : ℕ → ℤ)
    (hq : ∀ i < d, q i = i) (ht : ∀ i < d, t i = 1) :
    matEq d (permMatrix d q t) (eyeM d) := by
  intro i hi j hj
  unfold permMatrix eyeM
  by_cases hij : i = j
  · rw [if_pos ⟨hi, hj, by rw [hq i hi]; exact hij⟩, if_pos ⟨hi, hj, hij⟩,
      ht i hi]
  · rw [if_neg (fun hc => hij (by rw [← hq i hi]; exact hc.2.2)),
      if_neg (fun hc => hij hc.2.2)]

lemma permMatrix_trace_zero (d : ℕ) (p : ℕ → ℕ) (s : ℕ → ℤ)
    (h : ∀ i < d, p i ≠ i) :
    traceM d (permMatrix d p s) = 0 := by
  unfold traceM
  apply Finset.sum_eq_zero
  intro i hi
  unfold permMatrix
  rw [if_neg (fun hc => (h i (Finset.mem_range.1 hi)) hc.2.2)]

lemma sigma_invol (d m : ℕ) (hdm : d = 4 * m) {i : ℕ} (hi : i < d) :
    rotP m (revP d (rotP m (revP d i))) = i := by
  subst hdm
  unfold rotP revP
  split_ifs <;> omega

/-- C7: `Klein4.canonical_group(d)` raises `NotImplementedError` and never
returns a group when `d mod 4 ≠ 0`; when `d mod 4 = 0` it succeeds,
returning two generators (hence 4 discrete actions) with both generator
traces zero, so `is_canonical()` holds. -/
theorem c7_klein_canonical (d : ℕ) (hd : 0 < d) :
    (d % 4 ≠ 0 → canonicalKlein4 d = .error "NotImplementedError") ∧
    (d % 4 = 0 → ∃ ra rb, canonicalKlein4 d = .ok [ra, rb] ∧
      (kleinActions d ra rb).length = 4 ∧
      traceM d ra = 0 ∧ traceM d rb = 0) := by
  constructor
  · intro hm
    unfold canonicalKlein4
    rw [if_neg (not_not_intro hd), if_pos (by omega)]
  · intro hm
    have hdm : d = 4 * (d / 4) := by omega
    set m := d / 4 with hmm
    have hm1 : 1 ≤ m := by omega
    have hrotlt : ∀ i < d, rotP m i < d := by
      intro i hi
      rw [hdm] at hi ⊢
      exact rotP_lt m hi
    have hrotinv : ∀ i < d, rotP m (rotP m i) = i := by
      intro i hi
      rw [hdm] at hi
      exact rotP_invol m hi
    have heffr : effSigns d (some (List.replicate d (1 : ℤ))) =
        List.replicate d 1 := by
      show (if (List.replicate d (1 : ℤ)).isEmpty = true
        then List.replicate d (1 : ℤ) else List.replicate d 1) =
          List.replicate d 1
      split_ifs <;> rfl
    have ha := oneline2matrix_perm d ((List.range d).reverse) (revP d) none
      (List.replicate d 1) (by simp)
      (fun i hi => by rw [reverse_range_getD d hi]; rfl)
      (fun i hi => revP_lt d hi)
      ((List.nodup_reverse).2 (List.nodup_range d))
      rfl (by simp)
    have hb := oneline2matrix_perm d (bKlein m) (rotP m)
      (some (List.replicate d 1)) (List.replicate d 1)
      (by rw [bKlein_length]; omega)
      (fun i hi => bKlein_getD m (by omega))
      hrotlt
      (by
        rw [bKlein_eq_map]
        refine List.Nodup.map_on ?_ (List.nodup_range _)
        intro x hx y hy hxy
        rw [List.mem_range] at hx hy
        rw [← rotP_invol m hx, hxy, rotP_invol m hy])
      heffr (by simp)
    rw [ok_matrix_ones] at ha hb
    refine ⟨permMatrix d (revP d) (fun _ => 1),
      permMatrix d (rotP m) (fun _ => 1), ?_, by simp [kleinActions], ?_, ?_⟩
    · unfold canonicalKlein4
      rw [if_neg (not_not_intro hd), if_neg (by omega), ← hmm, ha, hb]
      have horthA : symOrthonormal d (permMatrix d (revP d) (fun _ => 1)) :=
        permMatrix_orthonormal d _ _ (fun i hi => revP_lt d hi)
          (fun i hi => revP_invol d hi) (fun i _ => Or.inl rfl)
      have horthB : symOrthonormal d (permMatrix d (rotP m) (fun _ => 1)) :=
        permMatrix_orthonormal d _ _ hrotlt hrotinv (fun i _ => Or.inl rfl)
      have haa : matEq d (matMul d (permMatrix d (revP d) (fun _ => 1))
          (permMatrix d (revP d) (fun _ => 1))) (eyeM d) := by
        rw [permMatrix_mul d _ _ _ _ (fun i hi => revP_lt d hi)]
        exact permMatrix_eq_eye d _ _ (fun i hi => revP_invol d hi)
          (fun i _ => mul_one 1)
      have hbb : matEq d (matMul d (permMatrix d (rotP m) (fun _ => 1))
          (permMatrix d (rotP m) (fun _ => 1))) (eyeM d) := by
        rw [permMatrix_mul d _ _ _ _ hrotlt]
        exact permMatrix_eq_eye d _ _ hrotinv (fun i _ => mul_one 1)
      have hab : matMul d (permMatrix d (revP d) (fun _ => 1))
          (permMatrix d (rotP m) (fun _ => 1)) =
          permMatrix d (fun i => rotP m (revP d i)) (fun i => 1 * 1) :=
        permMatrix_mul d _ _ _ _ (fun i hi => revP_lt d hi)
      have habab : matEq d (matMul d
          (matMul d (permMatrix d (revP d) (fun _ => 1))
            (permMatrix d (rotP m) (fun _ => 1)))
          (matMul d (permMatrix d (revP d) (fun _ => 1))
            (permMatrix d (rotP m) (fun _ => 1)))) (eyeM d) := by
        rw [hab, permMatrix_mul d _ _ _ _
          (fun i hi => hrotlt _ (revP_lt d hi))]
        exact permMatrix_eq_eye d _ _
          (fun i hi => sigma_invol d m hdm hi) (fun i _ => by norm_num)
      have hnab : ¬ matEq d (matMul d (permMatrix d (revP d) (fun _ => 1))
          (permMatrix d (rotP m) (fun _ => 1))) (eyeM d) := by
        rw [hab]
        intro hc
        have h00 := hc 0 (by omega) 0 (by omega)
        have hσ0 : rotP m (revP d 0) ≠ 0 := by
          unfold rotP revP
          split_ifs <;> omega
        unfold permMatrix eyeM at h00
        rw [if_neg (fun hc2 => hσ0 hc2.2.2),
          if_pos ⟨by omega, by omega, rfl⟩] at h00
        norm_num at h00
      show (if ¬ (symOrthonormal d (permMatrix d (revP d) (fun _ => 1)) ∧
          symOrthonormal d (permMatrix d (rotP m) (fun _ => 1))) then
          Except.error "AssertOrthogonal"
        else if ¬ matEq d (matMul d (permMatrix d (revP d) (fun _ => 1))
            (permMatrix d (revP d) (fun _ => 1))) (eyeM d) then
          Except.error "NotInvolutiveError"
        else if ¬ matEq d (matMul d (permMatrix d (rotP m) (fun _ => 1))
            (permMatrix d (rotP m) (fun _ => 1))) (eyeM d) then
          Except.error "NotInvolutiveError"
        else if ¬ matEq d (matMul d
            (matMul d (permMatrix d (revP d) (fun _ => 1))
              (permMatrix d (rotP m) (fun _ => 1)))
            (matMul d (permMatrix d (revP d) (fun _ => 1))
              (permMatrix d (rotP m) (fun _ => 1)))) (eyeM d) then
          Except.error "ClosureError"
        else if matEq d (matMul d (permMatrix d (revP d) (fun _ => 1))
            (permMatrix d (rotP m) (fun _ => 1))) (eyeM d) then
          Except.error "ClosureError"
        else .ok [permMatrix d (revP d) (fun _ => 1),
          permMatrix d (rotP m) (fun _ => 1)]) =
        .ok [permMatrix d (revP d) (fun _ => 1),
          permMatrix d (rotP m) (fun _ => 1)]
      rw [if_neg (not_not_intro ⟨horthA, horthB⟩), if_neg (not_not_intro haa),
        if_neg (not_not_intro hbb), if_neg (not_not_intro habab),
        if_neg hnab]
    · apply permMatrix_trace_zero
      intro i hi
      unfold revP
      omega
    · apply permMatrix_trace_zero
      intro i hi
      unfold rotP
      split_ifs <;> omega

/-- Witness for C7 at `d = 8`. -/
theorem c7_witness :
    0 < 8 ∧
    ((8 % 4 ≠ 0 → canonicalKlein4 8 = .error "NotImplementedError") ∧
    (8 % 4 = 0 → ∃ ra rb, canonicalKlein4 8 = .ok [ra, rb] ∧
      (kleinActions 8 ra rb).length = 4 ∧
      traceM 8 ra = 0 ∧ traceM 8 rb = 0)) :=
  ⟨by decide, c7_klein_canonical 8 (by decide)⟩

end MorphoSymm
